import Mathlib

/-!
Shallow embedding of `src/mentpy/state/flow.py` (generalized-flow finder for
graph states) together with the external collaborators it uses:

* vertices are natural numbers (the Python code stores integer labels);
* `networkx` undirected/directed graphs are modelled as node lists plus edge
  lists in insertion order, which is exactly the iteration order `networkx`
  exposes (its adjacency containers are insertion-ordered dicts);
* `numpy` arrays are `List Nat` with explicit bounds-checked access: reading
  or writing past the end is an `IndexError` in Python and is modelled as
  `Err.indexError`;
* Python exceptions are the constructors of `Err`; every fallible operation
  lives in `Except Err`;
* unbounded recursion and `while` loops take explicit fuel; running out of
  fuel (`Err.fuelOut`) models nontermination and is justified next to each
  fuel choice.
-/

/-- Python exceptions (and the artificial nontermination marker) raised by the
flow module and the library calls it performs. -/
inductive Err where
  /-- `ValueError` raised by `find_flow` when input and output sizes differ. -/
  | valueErrorSize
  /-- `ValueError` raised by `list.index` when the element is absent. -/
  | valueErrorIndexOf
  /-- `UserWarning` raised by `find_flow` when no flow is found. -/
  | userWarningNoFlow
  /-- `UserWarning` raised by the flow closure outside its domain. -/
  | userWarningDomain
  /-- `RuntimeError` raised when the sanity check fails. -/
  | runtimeErrorSanity
  /-- `IndexError` from a numpy array access out of bounds. -/
  | indexError
  /-- `KeyError` from a dict access on a missing key. -/
  | keyError
  /-- `StopIteration` from `next` on an exhausted iterator. -/
  | stopIteration
  /-- `AttributeError` from calling a method on `None`. -/
  | attributeError
  /-- `NetworkXError` from neighbor lookup of an absent node or removing an
  absent edge. -/
  | networkxError
  /-- `NetworkXUnfeasible` from topologically sorting a cyclic digraph. -/
  | networkxUnfeasible
  /-- Artificial marker: the modelled loop ran out of fuel (models a Python
  nonterminating loop or a recursion deeper than the chosen bound). -/
  | fuelOut
deriving DecidableEq, Repr

/-- Undirected `networkx` graph: nodes and edges in insertion order. -/
structure Graph where
  nodes : List Nat
  edges : List (Nat × Nat)
deriving DecidableEq, Repr

/-- Directed `networkx` graph: nodes and edges in insertion order. -/
structure DiGraph where
  nodes : List Nat
  edges : List (Nat × Nat)
deriving DecidableEq, Repr

/-- Modelled from the spec: the `GraphStateCircuit` class itself lives in
`mentpy/state` outside the provided source file.  The spec describes it as an
undirected graph together with an ordered input-vertex list and an
output-vertex set. -/
structure GraphStateCircuit where
  graph : Graph
  input_nodes : List Nat
  output_nodes : List Nat
deriving DecidableEq, Repr

/-- Modelled from the spec: `OutputComplement = V \ Output`; the accessor
`state.outputc` is defined outside the provided source file. -/
def GraphStateCircuit.outputc (s : GraphStateCircuit) : List Nat :=
  s.graph.nodes.filter (fun v => decide (v ∉ s.output_nodes))

/-- Bounds-checked numpy array read: `a[i]`. -/
def npGet (a : List Nat) (i : Nat) : Except Err Nat :=
  match a.get? i with
  | some x => .ok x
  | none => .error .indexError

/-- Bounds-checked numpy array write: `a[i] = x`. -/
def npSet (a : List Nat) (i : Nat) (x : Nat) : Except Err (List Nat) :=
  if i < a.length then .ok (a.set i x) else .error .indexError

/-- Bounds-checked numpy matrix read: `m[i, j]`. -/
def npGet2 (m : List (List Nat)) (i j : Nat) : Except Err Nat :=
  match m.get? i with
  | some row => npGet row j
  | none => .error .indexError

/-- Bounds-checked numpy matrix write: `m[i, j] = x`. -/
def npSet2 (m : List (List Nat)) (i j x : Nat) : Except Err (List (List Nat)) :=
  match m.get? i with
  | some row => (npSet row j x).map (fun r => m.set i r)
  | none => .error .indexError

/-- Python dict read `d[k]`; raises `KeyError` when the key is absent. -/
def dictLookup (d : List (Nat × Nat)) (k : Nat) : Except Err Nat :=
  match d.find? (fun p => p.1 == k) with
  | some p => .ok p.2
  | none => .error .keyError

/-- Python dict write `d[k] = x`: replaces the binding if present, otherwise
appends it. -/
def dictSet (d : List (Nat × Nat)) (k x : Nat) : List (Nat × Nat) :=
  if d.any (fun p => p.1 == k) then
    d.map (fun p => if p.1 == k then (k, x) else p)
  else d ++ [(k, x)]

/-- `next(it)` on a `networkx` view iterator: first element or
`StopIteration`. -/
def nextI (l : List Nat) : Except Err Nat :=
  match l with
  | [] => .error .stopIteration
  | x :: _ => .ok x

/-- Adjacency list of `v` as `networkx` iterates it: neighbors appear in the
order the incident edges were inserted, without duplicates. -/
def Graph.neighbors (g : Graph) (v : Nat) : List Nat :=
  g.edges.foldl
    (fun acc e =>
      let acc2 := if e.1 = v ∧ e.2 ∉ acc then acc ++ [e.2] else acc
      if e.2 = v ∧ e.1 ∉ acc2 then acc2 ++ [e.1] else acc2)
    []

/-- `state.graph.neighbors(v)`: `networkx` raises `NetworkXError` when `v` is
not a node of the graph. -/
def nxNeighbors (g : Graph) (v : Nat) : Except Err (List Nat) :=
  if v ∈ g.nodes then .ok (g.neighbors v) else .error .networkxError

/-- The empty `nx.DiGraph()`. -/
def DiGraph.empty : DiGraph := ⟨[], []⟩

/-- Internal node insertion used by `add_edge`. -/
def DiGraph.addNode (g : DiGraph) (v : Nat) : DiGraph :=
  if v ∈ g.nodes then g else { g with nodes := g.nodes ++ [v] }

/-- `g.add_edge(u, v)`: inserts missing endpoints, then the edge (at most
once; `networkx` stores simple digraphs). -/
def DiGraph.add_edge (g : DiGraph) (u v : Nat) : DiGraph :=
  let g1 := g.addNode u
  let g2 := g1.addNode v
  if (u, v) ∈ g2.edges then g2 else { g2 with edges := g2.edges ++ [(u, v)] }

/-- `g.successors(v)` in edge-insertion order. -/
def DiGraph.successors (g : DiGraph) (v : Nat) : List Nat :=
  (g.edges.filter (fun e => e.1 == v)).map (fun e => e.2)

/-- `g.predecessors(v)` in edge-insertion order. -/
def DiGraph.predecessors (g : DiGraph) (v : Nat) : List Nat :=
  (g.edges.filter (fun e => e.2 == v)).map (fun e => e.1)

/-- `g.has_edge(u, v)`. -/
def DiGraph.has_edge (g : DiGraph) (u v : Nat) : Bool :=
  decide ((u, v) ∈ g.edges)

/-- `g.remove_edge(u, v)`: `networkx` raises `NetworkXError` when the edge is
absent.  The Python method mutates `g` and returns `None`; call sites model
that explicitly. -/
def nxRemoveEdge (g : DiGraph) (u v : Nat) : Except Err DiGraph :=
  if (u, v) ∈ g.edges then
    .ok { g with edges := g.edges.filter (fun e => decide (¬e = (u, v))) }
  else .error .networkxError

/-- Access to the path-cover family, which the buggy re-rooting branch of
`_augmented_search` replaces by Python `None`; any method call on `None`
raises `AttributeError`. -/
def famGet : Option DiGraph → Except Err DiGraph
  | some g => .ok g
  | none => .error .attributeError

/-!
`_augmented_search` from the source (path-cover augmenting search).

The Python function is a recursive DFS over a shared mutable family `fam`
(an `nx.DiGraph` that the buggy re-rooting branch rebinds to `None`, the
return value of `remove_edge`), an attempt-stamp array `visited`, and the
immutable state.  The `for w in state.graph.neighbors(v)` loop is modelled by
the mutually recursive `_augmented_loop` over the snapshot of the neighbor
list.  Both take fuel and consume one unit per call or loop step; the search
recursion depth is bounded by the number of vertices (every recursive call
targets a vertex whose stamp is below the current attempt and stamps it), so
the fuel `(n + 1) * (n + 2)` chosen in `_build_path_cover` dominates the
total nesting `sum of (degree + 2)` over any call-stack path.
-/

mutual

/-- Embedding of `_augmented_search(state, fam, iter, visited, v)`. -/
def _augmented_search (s : GraphStateCircuit) (fam : Option DiGraph)
    (iter : Nat) (visited : List Nat) (v : Nat) :
    Nat → Except Err (Option DiGraph × List Nat × Nat)
  | 0 => .error .fuelOut
  | fuel + 1 => do
    let visited ← npSet visited v iter
    if v ∈ s.output_nodes then
      pure (fam, visited, 1)
    else do
      let g ← famGet fam
      if v ∈ g.nodes ∧ v ∉ s.input_nodes then do
        let p ← nextI (g.predecessors v)
        let pv ← npGet visited p
        if pv < iter then do
          let r ← _augmented_search s fam iter visited p fuel
          let (fam2, visited2, status) := r
          if status ≠ 0 then do
            let g2 ← famGet fam2
            let p2 ← nextI (g2.predecessors v)
            let _ ← nxRemoveEdge g2 p2 v
            pure (none, visited2, 1)
          else do
            let nbrs ← nxNeighbors s.graph v
            _augmented_loop s fam2 iter visited2 v nbrs fuel
        else do
          let nbrs ← nxNeighbors s.graph v
          _augmented_loop s fam iter visited v nbrs fuel
      else do
        let nbrs ← nxNeighbors s.graph v
        _augmented_loop s fam iter visited v nbrs fuel

/-- Embedding of the `for w in state.graph.neighbors(v)` loop inside
`_augmented_search`. -/
def _augmented_loop (s : GraphStateCircuit) (fam : Option DiGraph)
    (iter : Nat) (visited : List Nat) (v : Nat) :
    List Nat → Nat → Except Err (Option DiGraph × List Nat × Nat)
  | [], _ => pure (fam, visited, 0)
  | _, 0 => .error .fuelOut
  | w :: ws, fuel + 1 => do
    let vw ← npGet visited w
    if vw < iter ∧ w ∉ s.input_nodes then do
      let g ← famGet fam
      if ¬g.has_edge v w then
        if w ∉ g.nodes then do
          let r ← _augmented_search s fam iter visited w fuel
          let (fam2, visited2, status) := r
          if status ≠ 0 then do
            let g2 ← famGet fam2
            pure (some (g2.add_edge v w), visited2, 1)
          else
            _augmented_loop s fam2 iter visited2 v ws fuel
        else do
          let pw ← nextI (g.predecessors w)
          let vpw ← npGet visited pw
          if vpw < iter then do
            let r ← _augmented_search s fam iter visited pw fuel
            let (fam2, visited2, status) := r
            if status ≠ 0 then do
              let g2 ← famGet fam2
              let pw2 ← nextI (g2.predecessors w)
              let g3 ← nxRemoveEdge g2 pw2 w
              pure (some (g3.add_edge v w), visited2, 1)
            else
              _augmented_loop s fam2 iter visited2 v ws fuel
          else
            _augmented_loop s fam iter visited v ws fuel
      else
        _augmented_loop s fam iter visited v ws fuel
    else
      _augmented_loop s fam iter visited v ws fuel

end

/-- Embedding of the `for i in state.input_nodes` loop of `_build_path_cover`
together with the final coverage check. -/
def _build_cover_loop (s : GraphStateCircuit) (fuel0 : Nat) :
    List Nat → Option DiGraph → List Nat → Nat → Except Err (Option DiGraph)
  | [], fam, _, _ => do
    let g ← famGet fam
    if (s.graph.nodes.filter (fun u => decide (u ∉ g.nodes))).length = 0 then
      pure (some g)
    else
      pure none
  | i :: rest, fam, visited, iter => do
    let r ← _augmented_search s fam (iter + 1) visited i fuel0
    let (fam2, visited2, status) := r
    if status = 0 then
      pure none
    else
      _build_cover_loop s fuel0 rest fam2 visited2 (iter + 1)

/-- Embedding of `_build_path_cover(state)`.  The Python failure value is the
int `0`, modelled as `none`; success returns the family itself (which may be
an empty digraph). -/
def _build_path_cover (s : GraphStateCircuit) : Except Err (Option DiGraph) :=
  _build_cover_loop s
    ((s.graph.nodes.length + 1) * (s.graph.nodes.length + 2))
    s.input_nodes (some DiGraph.empty)
    (List.replicate s.graph.nodes.length 0) 0

/-- Embedding of `_flow_from_array(state, f)`: the returned closure answers
`f[v]` on the output complement and raises `UserWarning` elsewhere. -/
def _flow_from_array (s : GraphStateCircuit) (f : List (Nat × Nat)) :
    Nat → Except Err Nat := fun v =>
  if v ∈ s.outputc then dictLookup f v else .error .userWarningDomain

/-- Embedding of the `while v not in state.output_nodes` walk inside
`_get_chain_decomposition`.  Fuel `n = len(state.graph)` is exact: the Python
loop terminates only when the walked vertices are pairwise distinct (the
first successor of a vertex in `C` is deterministic, so a repeated vertex
means the walk cycles forever), hence a terminating walk makes at most `n`
steps and `Err.fuelOut` models precisely the nonterminating runs. -/
def _chain_walk (s : GraphStateCircuit) (C : DiGraph) (i : Nat) :
    Nat → Nat → List (Nat × Nat) → List Nat → List Nat → Nat →
    Except Err (List (Nat × Nat) × List Nat × List Nat) :=
  fun v l f P L fuel =>
    if v ∈ s.output_nodes then do
      let P ← npSet P v i
      let L ← npSet L v l
      pure (f, P, L)
    else
      match fuel with
      | 0 => .error .fuelOut
      | fuel + 1 => do
        let sv ← nextI (C.successors v)
        let f := dictSet f v sv
        let P ← npSet P v i
        let L ← npSet L v l
        _chain_walk s C i sv (l + 1) f P L fuel

/-- Embedding of the `for i in state.input_nodes` loop of
`_get_chain_decomposition`. -/
def _decomp_loop (s : GraphStateCircuit) (C : DiGraph) :
    List Nat → List (Nat × Nat) → List Nat → List Nat →
    Except Err (List (Nat × Nat) × List Nat × List Nat)
  | [], f, P, L => pure (f, P, L)
  | i :: rest, f, P, L => do
    let r ← _chain_walk s C i i 0 f P L s.graph.nodes.length
    let (f, P, L) := r
    _decomp_loop s C rest f P L

/-- Embedding of `_get_chain_decomposition(state, C)`.  The Python dict
comprehension `{v: 0 for v in set(state.graph) - set(state.output_nodes)}`
iterates a set in unspecified order; only the content of the resulting map is
observable, so it is built in node order. -/
def _get_chain_decomposition (s : GraphStateCircuit) (C : DiGraph) :
    Except Err (List (Nat × Nat) × List Nat × List Nat) :=
  let n := s.graph.nodes.length
  let P := List.replicate n 0
  let L := List.replicate n 0
  let f := (s.graph.nodes.filter (fun v => decide (v ∉ s.output_nodes))).map
    (fun v => (v, 0))
  _decomp_loop s C s.input_nodes f P L

/-- Embedding of `vertex2index = {v: index for index, v in
enumerate(state.input_nodes)}` (a later duplicate key overwrites an earlier
one, as in a Python dict comprehension). -/
def vertex2index (l : List Nat) : List (Nat × Nat) :=
  (l.enum.map (fun p => (p.2, p.1))).foldl (fun d p => dictSet d p.1 p.2) []

/-- Embedding of the `for v in state.graph.nodes(): for i in
state.input_nodes:` initialization loops of `_init_status`. -/
def _init_status_inner (sup : List (List Nat)) (v2i : List (Nat × Nat))
    (n : Nat) (Pv Lv v : Nat) :
    List Nat → Except Err (List (List Nat))
  | [] => pure sup
  | i :: rest => do
    let idx ← dictLookup v2i i
    let sup ←
      if i = Pv then npSet2 sup idx v Lv
      else npSet2 sup idx v n
    _init_status_inner sup v2i n Pv Lv v rest

/-- Outer vertex loop of `_init_status`. -/
def _init_status_loop (s : GraphStateCircuit) (v2i : List (Nat × Nat))
    (P L : List Nat) :
    List Nat → List (List Nat) → List Nat →
    Except Err (List (List Nat) × List Nat)
  | [], sup, status => pure (sup, status)
  | v :: rest, sup, status => do
    let Pv ← npGet P v
    let Lv ← npGet L v
    let sup ← _init_status_inner sup v2i s.graph.nodes.length Pv Lv v
      s.input_nodes
    let status ← npSet status v (if v ∈ s.output_nodes then 2 else 0)
    _init_status_loop s v2i P L rest sup status

/-- Embedding of `_init_status(state, P, L)`. -/
def _init_status (s : GraphStateCircuit) (P L : List Nat) :
    Except Err (List (List Nat) × List Nat) :=
  let n := s.graph.nodes.length
  let sup := List.replicate s.input_nodes.length (List.replicate n 0)
  let status := List.replicate n 0
  _init_status_loop s (vertex2index s.input_nodes) P L s.graph.nodes sup status

/-- Embedding of the `for i in state.input_nodes` tightening loop inside
`_traverse_infl_walk`: `sup[i1, v] = min(sup[i1, v], sup[i1, w])`. -/
def _tighten_loop (sup : List (List Nat)) (v2i : List (Nat × Nat)) (v w : Nat) :
    List Nat → Except Err (List (List Nat))
  | [] => pure sup
  | i :: rest => do
    let idx ← dictLookup v2i i
    let a ← npGet2 sup idx v
    let b ← npGet2 sup idx w
    let sup ← if b < a then npSet2 sup idx v b else pure sup
    _tighten_loop sup v2i v w rest

mutual

/-- Embedding of `_traverse_infl_walk(state, f, sup, status, v)`.  Fuel is
consumed once per call and once per neighbor-loop step; every recursive call
targets a vertex of status `0` and immediately marks it pending, so along
any call-stack path at most `len(nodes)` calls happen, each preceded by at
most one scan of a neighbor list — the fuel chosen in `_compute_suprema`
dominates that, and the Python recursion is bounded the same way. -/
def _traverse_infl_walk (s : GraphStateCircuit) (f : List (Nat × Nat))
    (sup : List (List Nat)) (status : List Nat) (v : Nat) :
    Nat → Except Err (List (List Nat) × List Nat)
  | 0 => .error .fuelOut
  | fuel + 1 => do
    let status ← npSet status v 1
    let nbrs ← nxNeighbors s.graph v
    let r ← _traverse_loop s f sup status v nbrs fuel
    let ((sup2, status2), early) := r
    if early then
      pure (sup2, status2)
    else do
      let status3 ← npSet status2 v 2
      pure (sup2, status3)

/-- Embedding of the `for w in state.graph.neighbors(v)` loop inside
`_traverse_infl_walk`; the boolean records whether the Python loop returned
early (after finding `status[w] == 1`). -/
def _traverse_loop (s : GraphStateCircuit) (f : List (Nat × Nat))
    (sup : List (List Nat)) (status : List Nat) (v : Nat) :
    List Nat → Nat → Except Err ((List (List Nat) × List Nat) × Bool)
  | [], _ => pure ((sup, status), false)
  | _, 0 => .error .fuelOut
  | w :: ws, fuel + 1 => do
    let fv ← dictLookup f v
    if w = fv ∧ w ≠ v then do
      let sw ← npGet status w
      let r ←
        if sw = 0 then _traverse_infl_walk s f sup status w fuel
        else pure (sup, status)
      let (sup2, status2) := r
      let sw2 ← npGet status2 w
      if sw2 = 1 then
        pure ((sup2, status2), true)
      else do
        let sup3 ← _tighten_loop sup2 (vertex2index s.input_nodes) v w
          s.input_nodes
        _traverse_loop s f sup3 status2 v ws fuel
    else
      _traverse_loop s f sup status v ws fuel

end

/-- Embedding of the `for v in set(state.graph.nodes()) -
set(state.output_nodes)` loop of `_compute_suprema`; Python iterates the set
in unspecified order, modelled by node-list order (the claims proved below
do not depend on the order). -/
def _suprema_loop (s : GraphStateCircuit) (f : List (Nat × Nat)) :
    List Nat → List (List Nat) → List Nat →
    Except Err (Option (List (List Nat)))
  | [], sup, _ => pure (some sup)
  | v :: rest, sup, status => do
    let sv ← npGet status v
    let r ←
      if sv = 0 then
        _traverse_infl_walk s f sup status v
          (s.graph.nodes.length * (2 * s.graph.edges.length + 2) + 1)
      else pure (sup, status)
    let (sup2, status2) := r
    let sv2 ← npGet status2 v
    if sv2 = 1 then
      pure none
    else
      _suprema_loop s f rest sup2 status2

/-- Embedding of `_compute_suprema(state, f, P, L)`; the Python `return None`
(no flow) is `none`. -/
def _compute_suprema (s : GraphStateCircuit) (f : List (Nat × Nat))
    (P L : List Nat) : Except Err (Option (List (List Nat))) := do
  let r ← _init_status s P L
  let (sup, status) := r
  _suprema_loop s f
    (s.graph.nodes.filter (fun v => decide (v ∉ s.output_nodes))) sup status

/-- Embedding of `_get_flowgraph(state, flow)`. -/
def _get_flowgraph_loop (flow : Nat → Except Err Nat) :
    List Nat → DiGraph → Except Err DiGraph
  | [], H => pure H
  | v :: rest, H => do
    let fv ← flow v
    _get_flowgraph_loop flow rest (H.add_edge v fv)

/-- Embedding of `_get_flowgraph(state, flow)`: the digraph with edges
`v → flow(v)` for `v` in the output complement. -/
def _get_flowgraph (s : GraphStateCircuit) (flow : Nat → Except Err Nat) :
    Except Err DiGraph :=
  _get_flowgraph_loop flow s.outputc DiGraph.empty

/-- One processed node of `nx.topological_sort`: decrement the indegree of
each child along the out-edges of `node` (in insertion order), moving
children whose indegree reaches zero from `indeg` to the `zero` stack. -/
def topoVisit (zero : List Nat) (indeg : List (Nat × Nat)) :
    List (Nat × Nat) → Except Err (List Nat × List (Nat × Nat))
  | [] => pure (zero, indeg)
  | e :: rest => do
    let d ← dictLookup indeg e.2
    if d - 1 = 0 then
      topoVisit (zero ++ [e.2]) (indeg.filter (fun p => p.1 != e.2)) rest
    else
      topoVisit zero
        (indeg.map (fun p => if p.1 == e.2 then (p.1, d - 1) else p)) rest

/-- Kahn loop of `nx.topological_sort`: pop the last zero-indegree node (the
`networkx` implementation uses `list.pop()`), emit it, and update the
indegree map; raises `NetworkXUnfeasible` when nodes with nonzero indegree
remain.  Each node enters the zero stack at most once, so fuel
`len(nodes) + 1` always suffices. -/
def topoLoop (g : DiGraph) :
    Nat → List Nat → List (Nat × Nat) → List Nat → Except Err (List Nat)
  | 0, _, _, _ => .error .fuelOut
  | _ + 1, [], indeg, acc =>
    if indeg.isEmpty then pure acc else .error .networkxUnfeasible
  | fuel + 1, z :: zs, indeg, acc => do
    let zr := (z :: zs).reverse
    match zr with
    | [] => .error .fuelOut
    | node :: restRev => do
      let r ← topoVisit restRev.reverse indeg
        (g.edges.filter (fun e => e.1 == node))
      let (zero2, indeg2) := r
      topoLoop g fuel zero2 indeg2 (acc ++ [node])

/-- Embedding of `list(nx.topological_sort(g))`. -/
def nx_topological_sort (g : DiGraph) : Except Err (List Nat) :=
  let indegAll := g.nodes.map
    (fun v => (v, (g.edges.filter (fun e => e.2 == v)).length))
  let zero := (indegAll.filter (fun p => p.2 == 0)).map (fun p => p.1)
  let indeg := indegAll.filter (fun p => p.2 != 0)
  topoLoop g (g.nodes.length + 1) zero indeg []

/-- Embedding of `top_order.index(x)`: Python `list.index` raises
`ValueError` when the element is absent. -/
def pyIndex (l : List Nat) (x : Nat) : Except Err Nat :=
  if x ∈ l then .ok (l.indexOf x) else .error .valueErrorIndexOf

/-- The part of an iterator remaining after `x in it` succeeded: everything
after the first occurrence of `x` (Python `in` consumes the iterator up to
and including the found element); if `x` never occurs the iterator is fully
consumed and nothing remains. -/
def afterFirst (x : Nat) : List Nat → List Nat
  | [] => []
  | y :: ys => if y = x then ys else afterFirst x ys

/-- Product over the booleans of `math.prod([... for k in ...])` inside
`_check_if_flow`, evaluating each `top_order.index(k)` (which can raise). -/
def _c3_prod (ord : List Nat) (iIdx : Nat) : List Nat → Except Err Nat
  | [] => pure 1
  | k :: rest => do
    let ki ← pyIndex ord k
    let p ← _c3_prod ord iIdx rest
    pure ((if iIdx < ki then 1 else 0) * p)

/-- Embedding of the `for i in state.outputc` loop of `_check_if_flow`,
threading the integer product `conds`.  `nfi` is an iterator: `i in nfi`
consumes it up to the first occurrence of `i`, so the subsequent
`set(nfi) - {i}` only contains the neighbors after that occurrence. -/
def _check_loop (s : GraphStateCircuit) (flow : Nat → Except Err Nat)
    (ord : List Nat) : List Nat → Nat → Except Err Nat
  | [], conds => pure conds
  | i :: rest, conds => do
    let fi ← flow i
    let nfi ← nxNeighbors s.graph fi
    let c1 : Nat := if i ∈ nfi then 1 else 0
    let remaining := afterFirst i nfi
    let i1 ← pyIndex ord i
    let i2 ← pyIndex ord fi
    let c2 : Nat := if i1 < i2 then 1 else 0
    let c3 ← _c3_prod ord i1 (remaining.filter (fun k => k != i))
    _check_loop s flow ord rest (conds * c1 * c2 * c3)

/-- Embedding of `_check_if_flow(state, flow, top_order)`: returns the final
integer `conds` (Python truthiness: nonzero means the check passed). -/
def _check_if_flow (s : GraphStateCircuit) (flow : Nat → Except Err Nat)
    (ord : List Nat) : Except Err Nat :=
  _check_loop s flow ord s.outputc 1

/-- Embedding of `find_flow(state, sanity_check)`.  Outcomes: `.error` models
a raised exception, `.ok none` models the implicit `return None` that Python
reaches when `_compute_suprema` reports no flow, and `.ok (some (flow,
top_order))` is the successful result. -/
def find_flow (s : GraphStateCircuit) (sanity_check : Bool) :
    Except Err (Option ((Nat → Except Err Nat) × List Nat)) :=
  if s.input_nodes.length ≠ s.output_nodes.length then
    .error .valueErrorSize
  else do
    let tau ← _build_path_cover s
    match tau with
    | some fam =>
      if fam.nodes.length ≠ 0 then do
        let r ← _get_chain_decomposition s fam
        let (f, P, L) := r
        let sigma ← _compute_suprema s f P L
        match sigma with
        | some _ => do
          let flow := _flow_from_array s f
          let g ← _get_flowgraph s flow
          let top_order ← nx_topological_sort g
          if sanity_check then do
            let chk ← _check_if_flow s flow top_order
            if chk = 0 then .error .runtimeErrorSanity
            else pure (some (flow, top_order))
          else
            pure (some (flow, top_order))
        | none => pure none
      else
        .error .userWarningNoFlow
    | none => .error .userWarningNoFlow

/-!
Concrete states and claim-side definitions used by the theorems below.
-/

/-- The path graph `0 - 1 - 2 - 3 - 4` with input `{0}` and output `{4}`
(the docstring example of `find_flow`). -/
def pathState : GraphStateCircuit :=
  ⟨⟨[0, 1, 2, 3, 4], [(0, 1), (1, 2), (2, 3), (3, 4)]⟩, [0], [4]⟩

/-- A state on which the second augmentation attempt reaches the re-rooting
branch of `_augmented_search` with a successful recursive call: chain
`0 → 1 → 2 → 3` is built for input `0`, then input `4` reaches claimed `2`,
re-roots `1`, which re-roots `0` onto output `5`. -/
def rerootState : GraphStateCircuit :=
  ⟨⟨[0, 1, 2, 3, 4, 5], [(0, 1), (1, 2), (2, 3), (2, 4), (0, 5)]⟩,
    [0, 4], [3, 5]⟩

/-- Two vertices labelled `0` and `5`: the label `5` exceeds `|V| - 1 = 1`
and is reached by the augmenting search. -/
def oobState : GraphStateCircuit := ⟨⟨[0, 5], [(0, 5)]⟩, [0], [5]⟩

/-- Three vertices labelled `0`, `1`, `5`: the label `5` exceeds
`|V| - 1 = 2` but the vertex is isolated and never touched by any array
access. -/
def oobIsolatedState : GraphStateCircuit := ⟨⟨[0, 1, 5], [(0, 1)]⟩, [0], [1]⟩

/-- The state with no vertices at all. -/
def emptyState : GraphStateCircuit := ⟨⟨[], []⟩, [], []⟩

/-- A state with mismatched input/output sizes (used as a witness). -/
def mismatchState : GraphStateCircuit := ⟨⟨[0], []⟩, [0], []⟩

/-- State for the validator counterexample: vertex `2` is a neighbor of `1`
inserted before the edge `0 - 1`, so the iterator `state.graph.neighbors(1)`
yields `2` before `0`. -/
def orderCheckState : GraphStateCircuit :=
  ⟨⟨[2, 1, 0], [(2, 1), (0, 1)]⟩, [0], [1, 2]⟩

/-- Constant flow map used with `orderCheckState`: `flow(0) = 1`. -/
def orderCheckFlow : Nat → Except Err Nat := fun _ => .ok 1

/-- Ordering used with `orderCheckState`: positions `2 ↦ 0`, `0 ↦ 1`,
`1 ↦ 2`. -/
def orderCheckOrder : List Nat := [2, 0, 1]

/-- Two adjacent non-output vertices whose successor entries form a
two-cycle (used as the suprema-cycle witness). -/
def cyclePairState : GraphStateCircuit := ⟨⟨[0, 1], [(0, 1)]⟩, [0], []⟩

/-- The mutually-referential successor map for `cyclePairState`. -/
def cyclePairSucc : List (Nat × Nat) := [(0, 1), (1, 0)]

/-- Topological order extracted from a `find_flow` result, when the call
succeeded. -/
def resultOrder (r : Except Err (Option ((Nat → Except Err Nat) × List Nat))) :
    Option (List Nat) :=
  match r with
  | .ok (some (_, ord)) => some ord
  | _ => none

/-- Value of the returned flow function at `v`, when the call succeeded and
the flow is defined at `v`. -/
def resultFlowAt (r : Except Err (Option ((Nat → Except Err Nat) × List Nat)))
    (v : Nat) : Option Nat :=
  match r with
  | .ok (some (fl, _)) =>
    match fl v with
    | .ok x => some x
    | _ => none
  | _ => none

/-- The validator accepted the pair: `_check_if_flow` returned a nonzero
product (Python truthiness of the returned int). -/
def acceptsFlow (s : GraphStateCircuit) (flow : Nat → Except Err Nat)
    (ord : List Nat) : Prop :=
  ∃ c, _check_if_flow s flow ord = .ok c ∧ c ≠ 0

/-- The flow conditions exactly as the spec words them: for every `v` in the
output complement, (a) `v` is graph-adjacent to `flow(v)`, (b) `v` precedes
`flow(v)` in the order, and (c) `v` precedes every neighbor `k ≠ v` of
`flow(v)`.  This is the claim-side definition used to compare the spec
against the implementation. -/
def flowCondsSpec (s : GraphStateCircuit) (flow : Nat → Except Err Nat)
    (ord : List Nat) : Bool :=
  s.outputc.all (fun v =>
    match flow v with
    | .ok fv =>
      decide (v ∈ s.graph.neighbors fv) &&
      decide (ord.indexOf v < ord.indexOf fv) &&
      ((s.graph.neighbors fv).filter (fun k => k != v)).all
        (fun k => decide (ord.indexOf v < ord.indexOf k))
    | _ => false)

/-- The conditions the implementation actually enforces: as `flowCondsSpec`,
except that condition (c) only ranges over the neighbors of `flow(v)` that
occur after the first occurrence of `v` in the adjacency order (because
`i in nfi` consumes the neighbors iterator up to `i`). -/
def flowCondsImpl (s : GraphStateCircuit) (flow : Nat → Except Err Nat)
    (ord : List Nat) : Bool :=
  s.outputc.all (fun v =>
    match flow v with
    | .ok fv =>
      decide (v ∈ s.graph.neighbors fv) &&
      decide (ord.indexOf v < ord.indexOf fv) &&
      ((afterFirst v (s.graph.neighbors fv)).filter (fun k => k != v)).all
        (fun k => decide (ord.indexOf v < ord.indexOf k))
    | _ => false)

/-- Number of `0` entries of a status array. -/
def countZeros (status : List Nat) : Nat :=
  (status.filter (fun x => x == 0)).length

/-- Iterating the successor map `f` from `v` reaches an output vertex within
`k` applications (every intermediate lookup being defined). -/
def reachesOutput (f : List (Nat × Nat)) (outs : List Nat) :
    Nat → Nat → Bool
  | v, 0 => decide (v ∈ outs)
  | v, k + 1 =>
    decide (v ∈ outs) ||
      match dictLookup f v with
      | .ok w => reachesOutput f outs w k
      | .error _ => false

/-- Shape invariant of the supremum matrix: one row per input vertex, one
column per graph vertex. -/
def SupOk (s : GraphStateCircuit) (sup : List (List Nat)) : Prop :=
  sup.length = s.input_nodes.length ∧
  ∀ r ∈ sup, r.length = s.graph.nodes.length

/-- Invariant of the status array: right length, values among the codes
`0`/`1`/`2` of `_init_status`, and no output vertex left at `0`. -/
def StatusOk (s : GraphStateCircuit) (status : List Nat) : Prop :=
  status.length = s.graph.nodes.length ∧
  (∀ k x, status.get? k = some x → x = 0 ∨ x = 1 ∨ x = 2) ∧
  (∀ u ∈ s.graph.nodes, u ∈ s.output_nodes → status.get? u ≠ some 0)

/-- Neither vertex of the mutually-referential pair has been resolved. -/
def PairOk (a b : Nat) (status : List Nat) : Prop :=
  status.get? a ≠ some 2 ∧ status.get? b ≠ some 2

/-- The successor-map entries agree with the first cover successor along a
chain from `v` that reaches an output vertex within `k` steps. -/
def viaAgrees (f : List (Nat × Nat)) (C : DiGraph) (outs : List Nat) :
    Nat → Nat → Prop
  | v, 0 => v ∈ outs
  | v, k + 1 => v ∈ outs ∨ ∃ w, (C.successors v).head? = some w ∧
      dictLookup f v = .ok w ∧ viaAgrees f C outs w k

/-- The family built by the augmenting search only mentions graph vertices
(trivially true for the `None` produced by the buggy branch). -/
def famClosed (s : GraphStateCircuit) : Option DiGraph → Prop
  | none => True
  | some g => (∀ u ∈ g.nodes, u ∈ s.graph.nodes) ∧
      ∀ e ∈ g.edges, e.1 ∈ s.graph.nodes ∧ e.2 ∈ s.graph.nodes

/-!
Claim theorems and their witnesses.
-/

/-- C1: for the path graph on `{0, 1, 2, 3, 4}` with edges forming a simple
chain, input `{0}` and output `{4}`, `find_flow` succeeds and returns a flow
with `flow(v) = v + 1` for every `v` in `{0, 1, 2, 3}` and the topological
order `[0, 1, 2, 3, 4]`. -/
theorem find_flow_path_graph :
    resultOrder (find_flow pathState false) = some [0, 1, 2, 3, 4] ∧
    resultFlowAt (find_flow pathState false) 0 = some 1 ∧
    resultFlowAt (find_flow pathState false) 1 = some 2 ∧
    resultFlowAt (find_flow pathState false) 2 = some 3 ∧
    resultFlowAt (find_flow pathState false) 3 = some 4 :=
  ⟨by decide, by decide, by decide, by decide, by decide⟩

/-- C3 (divergence witness): on `rerootState` the second augmentation
attempt re-roots the predecessor of a claimed vertex; the successful branch
executes `fam = fam.remove_edge(...)`, which rebinds the path-cover family
to `None` (the return value of `remove_edge`), so instead of detaching a
single edge and leaving the family otherwise intact, the whole run crashes
with `AttributeError` at the next family operation. -/
theorem find_flow_rerooting_none_crash :
    _build_path_cover rerootState = .error .attributeError ∧
    find_flow rerootState false = .error .attributeError :=
  ⟨by rfl, by rfl⟩

/-- C6: whenever the input and output lists have different sizes,
`find_flow` yields the input-shape `ValueError` — for every state with such
sizes, regardless of any property of the graph, so no graph traversal can
have taken place. -/
theorem find_flow_shape_mismatch (s : GraphStateCircuit) (c : Bool)
    (h : s.input_nodes.length ≠ s.output_nodes.length) :
    find_flow s c = .error .valueErrorSize := by
  simp [find_flow, h]

/-- Witness for C6 at a concrete mismatched state. -/
theorem find_flow_shape_mismatch_witness :
    mismatchState.input_nodes.length ≠ mismatchState.output_nodes.length ∧
    find_flow mismatchState false = .error .valueErrorSize :=
  ⟨by decide, find_flow_shape_mismatch mismatchState false (by decide)⟩

/-- C2: for a state with matching input/output sizes, a failed path cover
(the Python falsy values: the int `0` or an empty family) makes `find_flow`
raise the no-flow `UserWarning`, and a `None` from `_compute_suprema` makes
it return Python `None`; both outcomes differ from the input-shape
`ValueError`. -/
theorem find_flow_noflow_outcomes (s : GraphStateCircuit) (c : Bool)
    (h : s.input_nodes.length = s.output_nodes.length) :
    (∀ r, _build_path_cover s = .ok r →
      (r = none ∨ ∃ g, r = some g ∧ g.nodes.length = 0) →
      find_flow s c = .error .userWarningNoFlow) ∧
    (∀ g f P L, _build_path_cover s = .ok (some g) → g.nodes.length ≠ 0 →
      _get_chain_decomposition s g = .ok (f, P, L) →
      _compute_suprema s f P L = .ok none →
      find_flow s c = .ok none) ∧
    (.error .userWarningNoFlow ≠
      (.error .valueErrorSize :
        Except Err (Option ((Nat → Except Err Nat) × List Nat)))) ∧
    ((.ok none : Except Err (Option ((Nat → Except Err Nat) × List Nat))) ≠
      .error .valueErrorSize) := by
  refine ⟨?_, ?_, by simp, by simp⟩
  · intro r hb hr
    simp only [find_flow, h, ne_eq, not_true_eq_false, if_false, hb]
    rcases hr with rfl | ⟨g, rfl, hg⟩
    · rfl
    · simp [bind, Except.bind, Except.instMonad, hg]
  · intro g f P L hb hg hd hs
    have hg2 : ¬g.nodes = [] := by
      intro hnil
      exact hg (by simp [hnil])
    simp only [find_flow, h, ne_eq, not_true_eq_false, if_false, hb]
    simp only [bind, Except.bind, Except.instMonad, hg2, hd, hs, if_false,
      List.length_eq_zero]
    rfl

/-- Witness for C2: the empty state has matching sizes, its path cover is
the empty family (falsy in Python), and `find_flow` raises the no-flow
`UserWarning`, which differs from the shape error. -/
theorem find_flow_noflow_outcomes_witness :
    find_flow emptyState false = .error .userWarningNoFlow ∧
    (.error .userWarningNoFlow ≠
      (.error .valueErrorSize :
        Except Err (Option ((Nat → Except Err Nat) × List Nat)))) :=
  ⟨(find_flow_noflow_outcomes emptyState false (by decide)).1
      (some DiGraph.empty) (by rfl) (Or.inr ⟨DiGraph.empty, rfl, by decide⟩),
    (find_flow_noflow_outcomes emptyState false (by decide)).2.2.1⟩

/-- C8: the embedding of `find_flow` is a pure function, so two invocations
on the same state produce flow functions that agree on the whole output
complement and the same topological order (CPython's dict/list iteration
orders, which the embedding fixes, are themselves deterministic). -/
theorem find_flow_deterministic (s : GraphStateCircuit) (c : Bool)
    (r1 r2 : Except Err (Option ((Nat → Except Err Nat) × List Nat)))
    (h1 : find_flow s c = r1) (h2 : find_flow s c = r2) :
    (∀ v, v ∈ s.outputc → resultFlowAt r1 v = resultFlowAt r2 v) ∧
    resultOrder r1 = resultOrder r2 := by
  subst h1
  subst h2
  exact ⟨fun _ _ => rfl, rfl⟩

/-- Witness for C8 at the path-graph state. -/
theorem find_flow_deterministic_witness :
    (∀ v, v ∈ pathState.outputc →
      resultFlowAt (find_flow pathState false) v =
        resultFlowAt (find_flow pathState false) v) ∧
    resultOrder (find_flow pathState false) =
      resultOrder (find_flow pathState false) :=
  find_flow_deterministic pathState false _ _ rfl rfl

/-- C9 (counterexample to the claim as stated): `oobIsolatedState` carries
the label `5` with only `3` vertices, yet no array access goes out of
bounds — the run ends with the clean no-flow `UserWarning` because the
out-of-range vertex is merely left uncovered. -/
theorem out_of_range_label_clean_outcome :
    (5 ∈ oobIsolatedState.graph.nodes ∧
      ¬5 < oobIsolatedState.graph.nodes.length) ∧
    find_flow oobIsolatedState false = .error .userWarningNoFlow :=
  ⟨by decide, by rfl⟩

/-- C9 (amended): when the out-of-range label is actually reached by the
traversal, an array access goes out of bounds and the run dies with the
`IndexError` from indexing `visited` by the label — not with any of the
clean outcomes. -/
theorem out_of_range_label_index_error :
    (5 ∈ oobState.graph.nodes ∧ ¬5 < oobState.graph.nodes.length) ∧
    _build_path_cover oobState = .error .indexError ∧
    find_flow oobState false = .error .indexError :=
  ⟨by decide, by rfl, by rfl⟩

/-- C10: on the vertex-free state the path-cover construction succeeds with
the empty family, but `find_flow` treats that empty cover as falsy (Python
truthiness of a graph is its node count) and raises the no-flow
`UserWarning` instead of returning a trivial flow. -/
theorem empty_cover_treated_as_failure :
    _build_path_cover emptyState = .ok (some DiGraph.empty) ∧
    find_flow emptyState false = .error .userWarningNoFlow :=
  ⟨by rfl, by rfl⟩

/-- C5 (counterexample to the claim as stated): the validator accepts the
pair on `orderCheckState` even though vertex `2`, a neighbor of
`flow(0) = 1`, violates condition (c): `2` precedes `0` in the order.  The
neighbor `2` is skipped because `0 in nfi` already consumed it from the
neighbors iterator. -/
theorem check_if_flow_spec_counterexample :
    _check_if_flow orderCheckState orderCheckFlow orderCheckOrder = .ok 1 ∧
    flowCondsSpec orderCheckState orderCheckFlow orderCheckOrder = false :=
  ⟨by rfl, by rfl⟩

/-- Any element remaining after the iterator consumed through `x` was in
the original list. -/
theorem afterFirst_subset {k x : Nat} : ∀ {l : List Nat}, k ∈ afterFirst x l → k ∈ l
  | [], h => by simp [afterFirst] at h
  | y :: ys, h => by
    by_cases hy : y = x
    · simp [afterFirst, hy] at h
      simp [h]
    · simp [afterFirst, hy] at h
      exact List.mem_cons_of_mem _ (afterFirst_subset h)

/-- The product `math.prod([...])` of condition (c) is defined and nonzero
exactly when every listed neighbor comes after position `i1`. -/
theorem c3_prod_ok (ord : List Nat) (i1 : Nat) :
    ∀ l : List Nat, (∀ k ∈ l, k ∈ ord) →
    ∃ p, _c3_prod ord i1 l = .ok p ∧
      (p ≠ 0 ↔ ∀ k ∈ l, i1 < ord.indexOf k)
  | [], _ => ⟨1, rfl, by simp⟩
  | k :: rest, h => by
    obtain ⟨p, hp, hiff⟩ := c3_prod_ok ord i1 rest (fun x hx => h x (List.mem_cons_of_mem _ hx))
    have hk : k ∈ ord := h k (List.mem_cons_self _ _)
    refine ⟨(if i1 < ord.indexOf k then 1 else 0) * p, ?_, ?_⟩
    · simp only [_c3_prod, pyIndex, hk, if_pos, bind, Except.bind, Except.instMonad, hp]
      rfl
    · constructor
      · intro hne
        rcases Nat.mul_ne_zero_iff.mp hne with ⟨h1, h2⟩
        intro x hx
        rcases List.mem_cons.mp hx with rfl | hx
        · by_contra hlt
          simp [hlt] at h1
        · exact hiff.mp h2 x hx
      · intro hall
        have h1 : i1 < ord.indexOf k := hall k (List.mem_cons_self _ _)
        have h2 : p ≠ 0 := hiff.mpr (fun x hx => hall x (List.mem_cons_of_mem _ hx))
        simp [h1]
        exact h2

/-- Helper for the validator loop: it never errors under the stated
membership side conditions, and its result is nonzero exactly when the
accumulated product is nonzero and every remaining vertex passes the checks
the implementation performs. -/
theorem check_loop_ok (s : GraphStateCircuit) (flow : Nat → Except Err Nat)
    (ord : List Nat) :
    ∀ (l : List Nat) (conds : Nat),
    (∀ v ∈ l, ∃ fv, flow v = .ok fv ∧ fv ∈ s.graph.nodes ∧ v ∈ ord ∧
      fv ∈ ord ∧ ∀ k ∈ s.graph.neighbors fv, k ∈ ord) →
    ∃ c, _check_loop s flow ord l conds = .ok c ∧
      (c ≠ 0 ↔ conds ≠ 0 ∧ l.all (fun v =>
        match flow v with
        | .ok fv =>
          decide (v ∈ s.graph.neighbors fv) &&
          decide (ord.indexOf v < ord.indexOf fv) &&
          ((afterFirst v (s.graph.neighbors fv)).filter (fun k => k != v)).all
            (fun k => decide (ord.indexOf v < ord.indexOf k))
        | _ => false) = true)
  | [], conds, _ => ⟨conds, rfl, by simp⟩
  | v :: rest, conds, h => by
    obtain ⟨fv, hfv, hnode, hvord, hfvord, hnb⟩ := h v (List.mem_cons_self _ _)
    have hsub : ∀ k ∈ (afterFirst v (s.graph.neighbors fv)).filter
        (fun k => k != v), k ∈ ord := by
      intro k hk
      exact hnb k (afterFirst_subset (List.mem_of_mem_filter hk))
    obtain ⟨p, hp, hpiff⟩ := c3_prod_ok ord (ord.indexOf v) _ hsub
    obtain ⟨c, hc, hciff⟩ := check_loop_ok s flow ord rest
      (conds * (if v ∈ s.graph.neighbors fv then 1 else 0) *
        (if ord.indexOf v < ord.indexOf fv then 1 else 0) * p)
      (fun x hx => h x (List.mem_cons_of_mem _ hx))
    refine ⟨c, ?_, ?_⟩
    · simp only [_check_loop, bind, Except.bind, Except.instMonad, hfv,
        nxNeighbors, hnode, if_true, pyIndex, hvord, hfvord, hp, hc]
    · rw [hciff]
      simp only [List.all_cons, hfv, Bool.and_eq_true, decide_eq_true_eq]
      constructor
      · rintro ⟨hmul, hrest⟩
        rcases Nat.mul_ne_zero_iff.mp hmul with ⟨hmul2, hp0⟩
        rcases Nat.mul_ne_zero_iff.mp hmul2 with ⟨hmul3, hc2⟩
        rcases Nat.mul_ne_zero_iff.mp hmul3 with ⟨hconds, hc1⟩
        refine ⟨hconds, ⟨⟨?_, ?_⟩, ?_⟩, hrest⟩
        · by_contra hx
          simp [hx] at hc1
        · by_contra hx
          simp [hx] at hc2
        · rw [List.all_eq_true]
          intro k hk
          simpa using hpiff.mp hp0 k hk
      · rintro ⟨hconds, ⟨⟨h1, h2⟩, h3⟩, hrest⟩
        refine ⟨?_, hrest⟩
        have hp0 : p ≠ 0 := by
          apply hpiff.mpr
          intro k hk
          have := (List.all_eq_true.mp h3) k hk
          simpa using this
        refine Nat.mul_ne_zero (Nat.mul_ne_zero (Nat.mul_ne_zero hconds ?_) ?_) hp0
        · simp [h1]
        · simp [h2]

/-- C5 (amended): provided every inspected vertex and neighbor occurs in
the order and `flow` is defined on the output complement with values in the
graph, the validator accepts exactly when, for every `v` in the output
complement, (a) `v` is adjacent to `flow(v)`, (b) `v` precedes `flow(v)` in
the order, and (c) `v` precedes every neighbor of `flow(v)` that occurs
after the first occurrence of `v` in the adjacency order of `flow(v)` — not
every other neighbor, as the claim states. -/
theorem check_if_flow_accepts_iff (s : GraphStateCircuit)
    (flow : Nat → Except Err Nat) (ord : List Nat)
    (h : ∀ v ∈ s.outputc, ∃ fv, flow v = .ok fv ∧ fv ∈ s.graph.nodes ∧
      v ∈ ord ∧ fv ∈ ord ∧ ∀ k ∈ s.graph.neighbors fv, k ∈ ord) :
    acceptsFlow s flow ord ↔ flowCondsImpl s flow ord = true := by
  obtain ⟨c, hc, hiff⟩ := check_loop_ok s flow ord s.outputc 1 h
  constructor
  · rintro ⟨c2, hc2, hne⟩
    rw [_check_if_flow, hc] at hc2
    injection hc2 with he
    subst he
    exact (hiff.mp hne).2
  · intro hall
    exact ⟨c, hc, hiff.mpr ⟨one_ne_zero, hall⟩⟩

/-- Witness for the amended C5 theorem at the counterexample state: the
hypotheses hold and both sides of the equivalence are true. -/
theorem check_if_flow_accepts_iff_witness :
    (acceptsFlow orderCheckState orderCheckFlow orderCheckOrder ↔
      flowCondsImpl orderCheckState orderCheckFlow orderCheckOrder = true) ∧
    flowCondsImpl orderCheckState orderCheckFlow orderCheckOrder = true := by
  refine ⟨check_if_flow_accepts_iff _ _ _ ?_, by rfl⟩
  intro v hv
  have hv0 : v = 0 := by simpa [GraphStateCircuit.outputc, orderCheckState] using hv
  subst hv0
  exact ⟨1, rfl, by decide, by decide, by decide, by decide⟩

/-!
Lemmas for the suprema-cycle claim: counting the unvisited entries of the
status array, dictionary update/lookup, adjacency closure, and the combined
induction over `_traverse_infl_walk` and `_traverse_loop`.
-/

theorem countZeros_cons (y : Nat) (ys : List Nat) :
    countZeros (y :: ys) = (if y = 0 then 1 else 0) + countZeros ys := by
  unfold countZeros
  rw [List.filter_cons]
  by_cases hy : y = 0 <;> simp [hy, Nat.add_comm]

theorem countZeros_le (l : List Nat) : countZeros l ≤ l.length :=
  List.length_filter_le _ _

theorem countZeros_pos {l : List Nat} {i : Nat} (h : l.get? i = some 0) :
    1 ≤ countZeros l := by
  induction l generalizing i with
  | nil => simp at h
  | cons x xs ih =>
    rw [countZeros_cons]
    match i with
    | 0 =>
      rw [List.get?_cons_zero] at h
      injection h with h
      subst h
      simp
    | i + 1 =>
      rw [List.get?_cons_succ] at h
      have := ih h
      omega

theorem countZeros_set_zero {l : List Nat} {i x : Nat}
    (h : l.get? i = some 0) (hx : x ≠ 0) :
    countZeros (l.set i x) + 1 = countZeros l := by
  induction l generalizing i with
  | nil => simp at h
  | cons y ys ih =>
    match i with
    | 0 =>
      rw [List.get?_cons_zero] at h
      injection h with h
      subst h
      rw [List.set_cons_zero, countZeros_cons, countZeros_cons]
      simp [hx]
      omega
    | i + 1 =>
      rw [List.get?_cons_succ] at h
      rw [List.set_cons_succ, countZeros_cons, countZeros_cons]
      have := ih h
      omega

theorem countZeros_set_nonzero {l : List Nat} {i x y : Nat}
    (h : l.get? i = some y) (hy : y ≠ 0) (hx : x ≠ 0) :
    countZeros (l.set i x) = countZeros l := by
  induction l generalizing i with
  | nil => simp at h
  | cons z zs ih =>
    match i with
    | 0 =>
      rw [List.get?_cons_zero] at h
      injection h with h
      subst h
      rw [List.set_cons_zero, countZeros_cons, countZeros_cons]
      simp [hx, hy]
    | i + 1 =>
      rw [List.get?_cons_succ] at h
      rw [List.set_cons_succ, countZeros_cons, countZeros_cons]
      have := ih h
      omega

theorem find?_map_keyupdate (a x k : Nat) (hka : k ≠ a) :
    ∀ ps : List (Nat × Nat),
    (ps.map (fun p => if p.1 == a then (a, x) else p)).find?
      (fun p => p.1 == k) = ps.find? (fun p => p.1 == k)
  | [] => rfl
  | p :: ps => by
    by_cases hpa : p.1 = a
    · have h2 : (a == k) = false := by simp [Ne.symm hka]
      have h3 : (p.1 == k) = false := by simp [hpa, Ne.symm hka]
      simp only [List.map_cons]
      rw [if_pos (by simp [hpa] : (p.1 == a) = true)]
      rw [List.find?_cons, List.find?_cons]
      simp only [h2, h3]
      exact find?_map_keyupdate a x k hka ps
    · simp only [List.map_cons]
      rw [if_neg (by simp [hpa] : ¬(p.1 == a) = true)]
      rw [List.find?_cons, List.find?_cons]
      cases hpk : (p.1 == k) with
      | true => simp only [hpk]
      | false =>
        simp only [hpk]
        exact find?_map_keyupdate a x k hka ps

theorem find?_map_keyupdate_self (a x : Nat) :
    ∀ ps : List (Nat × Nat), ps.any (fun p => p.1 == a) = true →
    (ps.map (fun p => if p.1 == a then (a, x) else p)).find?
      (fun p => p.1 == a) = some (a, x)
  | [], h => by simp at h
  | p :: ps, h => by
    by_cases hpa : p.1 = a
    · simp only [List.map_cons]
      rw [if_pos (by simp [hpa] : (p.1 == a) = true)]
      rw [List.find?_cons]
      simp only [beq_self_eq_true]
    · have h2 : ps.any (fun p => p.1 == a) = true := by
        rcases List.any_eq_true.mp h with ⟨q, hq, hqa⟩
        rcases List.mem_cons.mp hq with rfl | hq
        · simp [hpa] at hqa
        · exact List.any_eq_true.mpr ⟨q, hq, hqa⟩
      simp only [List.map_cons]
      rw [if_neg (by simp [hpa] : ¬(p.1 == a) = true)]
      rw [List.find?_cons]
      have h3 : (p.1 == a) = false := by simp [hpa]
      simp only [h3]
      exact find?_map_keyupdate_self a x ps h2

theorem dictLookup_dictSet (d : List (Nat × Nat)) (a x k : Nat) :
    dictLookup (dictSet d a x) k = if k = a then .ok x else dictLookup d k := by
  unfold dictSet dictLookup
  by_cases hany : d.any (fun p => p.1 == a) = true
  · rw [if_pos hany]
    by_cases hka : k = a
    · subst hka
      rw [find?_map_keyupdate_self k x d hany]
      simp
    · rw [find?_map_keyupdate a x k hka d, if_neg hka]
  · rw [if_neg hany]
    by_cases hka : k = a
    · subst hka
      have hnone : d.find? (fun p => p.1 == k) = none := by
        rw [List.find?_eq_none]
        intro p hp hc
        exact hany (List.any_eq_true.mpr ⟨p, hp, hc⟩)
      rw [List.find?_append, hnone]
      simp
    · have h2 : (a == k) = false := by simp [Ne.symm hka]
      rw [List.find?_append, if_neg hka]
      cases hfd : d.find? (fun p => p.1 == k) with
      | none => simp [List.find?_cons, h2]
      | some q => simp

theorem foldl_dictSet_lookup (k : Nat) :
    ∀ (ps : List (Nat × Nat)) (d : List (Nat × Nat)),
    dictLookup (ps.foldl (fun d p => dictSet d p.1 p.2) d) k =
      match ps.reverse.find? (fun p => p.1 == k) with
      | some p => .ok p.2
      | none => dictLookup d k
  | [], d => by simp
  | p :: ps, d => by
    rw [List.foldl_cons, foldl_dictSet_lookup k ps, List.reverse_cons,
      List.find?_append]
    cases hf : ps.reverse.find? (fun p => p.1 == k) with
    | some q => simp
    | none =>
      simp only [Option.none_or]
      rw [List.find?_cons]
      cases hpk : (p.1 == k) with
      | true =>
        have : k = p.1 := by
          have := eq_of_beq hpk
          omega
        simp [dictLookup_dictSet, this]
      | false =>
        have : ¬k = p.1 := by
          intro hc
          subst hc
          simp at hpk
        simp [dictLookup_dictSet, this]

theorem vertex2index_ok {l : List Nat} {i : Nat} (h : i ∈ l) :
    ∃ j, dictLookup (vertex2index l) i = .ok j ∧ j < l.length := by
  unfold vertex2index
  rw [foldl_dictSet_lookup]
  have hex : ((l.enum.map (fun p => (p.2, p.1))).reverse.find?
      (fun p => p.1 == i)).isSome = true := by
    rw [List.find?_isSome]
    rcases List.mem_iff_get?.mp h with ⟨n, hn⟩
    refine ⟨(i, n), ?_, by simp⟩
    rw [List.mem_reverse]
    exact List.mem_map.mpr ⟨(n, i), List.mem_enum_iff_get?.mpr hn, rfl⟩
  cases hf : (l.enum.map (fun p => (p.2, p.1))).reverse.find?
      (fun p => p.1 == i) with
  | none => rw [hf] at hex; simp at hex
  | some q =>
    refine ⟨q.2, by simp, ?_⟩
    have hq := List.mem_of_find?_eq_some hf
    rw [List.mem_reverse] at hq
    rcases List.mem_map.mp hq with ⟨e, he, hqe⟩
    have := List.mem_enum_iff_get?.mp he
    have hlt : e.1 < l.length := by
      rcases List.get?_eq_some.mp this with ⟨hh, _⟩
      exact hh
    have : q.2 = e.1 := by rw [← hqe]
    omega

theorem get?_set_self {l : List Nat} {i x : Nat} (h : i < l.length) :
    (l.set i x).get? i = some x := by
  rw [List.get?_set_eq]
  cases hg : l.get? i with
  | none => rw [List.get?_eq_none] at hg; omega
  | some y => rfl

theorem neighbors_step_mem (v : Nat) (acc : List Nat) (e : Nat × Nat)
    (x : Nat)
    (hx : x ∈ (let acc2 := if e.1 = v ∧ e.2 ∉ acc then acc ++ [e.2] else acc
      if e.2 = v ∧ e.1 ∉ acc2 then acc2 ++ [e.1] else acc2)) :
    x ∈ acc ∨ x = e.1 ∨ x = e.2 := by
  dsimp only at hx
  by_cases h1 : e.1 = v ∧ e.2 ∉ acc
  · rw [if_pos h1] at hx
    by_cases h2 : e.2 = v ∧ e.1 ∉ acc ++ [e.2]
    · rw [if_pos h2] at hx
      rcases List.mem_append.mp hx with hx | hx
      · rcases List.mem_append.mp hx with hx | hx
        · exact Or.inl hx
        · rw [List.mem_singleton] at hx
          exact Or.inr (Or.inr hx)
      · rw [List.mem_singleton] at hx
        exact Or.inr (Or.inl hx)
    · rw [if_neg h2] at hx
      rcases List.mem_append.mp hx with hx | hx
      · exact Or.inl hx
      · rw [List.mem_singleton] at hx
        exact Or.inr (Or.inr hx)
  · rw [if_neg h1] at hx
    by_cases h2 : e.2 = v ∧ e.1 ∉ acc
    · rw [if_pos h2] at hx
      rcases List.mem_append.mp hx with hx | hx
      · exact Or.inl hx
      · rw [List.mem_singleton] at hx
        exact Or.inr (Or.inl hx)
    · rw [if_neg h2] at hx
      exact Or.inl hx

theorem neighbors_step_length (v : Nat) (acc : List Nat) (e : Nat × Nat) :
    ((fun acc (e : Nat × Nat) =>
      let acc2 := if e.1 = v ∧ e.2 ∉ acc then acc ++ [e.2] else acc
      if e.2 = v ∧ e.1 ∉ acc2 then acc2 ++ [e.1] else acc2) acc e).length ≤
      acc.length + 2 := by
  dsimp only
  by_cases h1 : e.1 = v ∧ e.2 ∉ acc
  · rw [if_pos h1]
    by_cases h2 : e.2 = v ∧ e.1 ∉ acc ++ [e.2]
    · rw [if_pos h2]
      simp
    · rw [if_neg h2]
      simp
  · rw [if_neg h1]
    by_cases h2 : e.2 = v ∧ e.1 ∉ acc
    · rw [if_pos h2]
      simp
    · rw [if_neg h2]
      simp
theorem neighbors_mem_nodes {g : Graph}
    (hedges : ∀ e ∈ g.edges, e.1 ∈ g.nodes ∧ e.2 ∈ g.nodes) (v : Nat) :
    ∀ k ∈ g.neighbors v, k ∈ g.nodes := by
  unfold Graph.neighbors
  have main : ∀ (l : List (Nat × Nat)) (acc : List Nat),
      (∀ e ∈ l, e.1 ∈ g.nodes ∧ e.2 ∈ g.nodes) →
      (∀ x ∈ acc, x ∈ g.nodes) →
      ∀ k ∈ l.foldl
        (fun acc e =>
          let acc2 := if e.1 = v ∧ e.2 ∉ acc then acc ++ [e.2] else acc
          if e.2 = v ∧ e.1 ∉ acc2 then acc2 ++ [e.1] else acc2) acc,
        k ∈ g.nodes := by
    intro l
    induction l with
    | nil => intro acc _ hacc k hk; exact hacc k hk
    | cons e es ih =>
      intro acc hl hacc k hk
      refine ih _ (fun x hx => hl x (List.mem_cons_of_mem _ hx)) ?_ k hk
      intro x hx
      have he := hl e (List.mem_cons_self _ _)
      rcases neighbors_step_mem v acc e x hx with h | h | h
      · exact hacc x h
      · rw [h]; exact he.1
      · rw [h]; exact he.2
  exact main g.edges [] hedges (by simp)

theorem neighbors_length_le (g : Graph) (v : Nat) :
    (g.neighbors v).length ≤ 2 * g.edges.length := by
  unfold Graph.neighbors
  have main : ∀ (l : List (Nat × Nat)) (acc : List Nat),
      (l.foldl
        (fun acc e =>
          let acc2 := if e.1 = v ∧ e.2 ∉ acc then acc ++ [e.2] else acc
          if e.2 = v ∧ e.1 ∉ acc2 then acc2 ++ [e.1] else acc2) acc).length ≤
        acc.length + 2 * l.length := by
    intro l
    induction l with
    | nil => intro acc; simp
    | cons e es ih =>
      intro acc
      rw [List.foldl_cons]
      refine le_trans (ih _) ?_
      have hst := neighbors_step_length v acc e
      simp only [List.length_cons]
      dsimp only at hst ⊢
      omega
  simpa using main g.edges []

theorem npGet_ok_iff {a : List Nat} {i x : Nat} :
    npGet a i = .ok x ↔ a.get? i = some x := by
  unfold npGet
  cases h : a.get? i <;> simp

theorem npGet_of_lt {a : List Nat} {i : Nat} (h : i < a.length) :
    ∃ x, npGet a i = .ok x ∧ a.get? i = some x := by
  cases hg : a.get? i with
  | none => rw [List.get?_eq_none] at hg; omega
  | some y => exact ⟨y, npGet_ok_iff.mpr hg, rfl⟩

theorem npSet_ok {a : List Nat} {i : Nat} (x : Nat) (h : i < a.length) :
    npSet a i x = .ok (a.set i x) := by
  simp [npSet, h]

theorem npSet2_ok {m : List (List Nat)} {i j : Nat} {row : List Nat}
    (x : Nat) (hrow : m.get? i = some row) (hj : j < row.length) :
    npSet2 m i j x = .ok (m.set i (row.set j x)) := by
  unfold npSet2
  rw [hrow]
  dsimp only
  rw [npSet_ok x hj]
  rfl

theorem npGet2_ok {m : List (List Nat)} {i j : Nat} {row : List Nat}
    (hrow : m.get? i = some row) (hj : j < row.length) :
    ∃ x, npGet2 m i j = .ok x := by
  obtain ⟨x, hx, _⟩ := npGet_of_lt hj
  refine ⟨x, ?_⟩
  unfold npGet2
  rw [hrow]
  dsimp only
  exact hx

theorem SupOk_set {s : GraphStateCircuit} {sup : List (List Nat)} {i : Nat}
    {row : List Nat} (hs : SupOk s sup) (hrow : sup.get? i = some row)
    (j x : Nat) :
    SupOk s (sup.set i (row.set j x)) := by
  refine ⟨by rw [List.length_set]; exact hs.1, ?_⟩
  intro r hr
  rcases List.mem_or_eq_of_mem_set hr with hr | rfl
  · exact hs.2 r hr
  · rw [List.length_set]
    exact hs.2 row (List.get?_mem hrow)

theorem get?_of_lt {l : List Nat} {i : Nat} (h : i < l.length) :
    ∃ x, l.get? i = some x := by
  cases hg : l.get? i with
  | none => rw [List.get?_eq_none] at hg; omega
  | some y => exact ⟨y, rfl⟩

theorem get2?_of_lt {m : List (List Nat)} {i : Nat} (h : i < m.length) :
    ∃ row, m.get? i = some row := by
  cases hg : m.get? i with
  | none => rw [List.get?_eq_none] at hg; omega
  | some r => exact ⟨r, rfl⟩

theorem tighten_ok (s : GraphStateCircuit) (v w : Nat)
    (hv : v < s.graph.nodes.length) (hw : w < s.graph.nodes.length) :
    ∀ (l : List Nat) (sup : List (List Nat)),
    (∀ i ∈ l, i ∈ s.input_nodes) → SupOk s sup →
    ∃ sup2, _tighten_loop sup (vertex2index s.input_nodes) v w l = .ok sup2 ∧
      SupOk s sup2
  | [], sup, _, hs => ⟨sup, rfl, hs⟩
  | i :: rest, sup, h, hs => by
    obtain ⟨j, hj, hjl⟩ := vertex2index_ok (h i (List.mem_cons_self _ _))
    have hjs : j < sup.length := by rw [hs.1]; exact hjl
    obtain ⟨row, hrow⟩ := get2?_of_lt hjs
    have hrl : row.length = s.graph.nodes.length :=
      hs.2 row (List.get?_mem hrow)
    obtain ⟨a, ha⟩ := npGet2_ok hrow (by omega : v < row.length)
    obtain ⟨b, hb⟩ := npGet2_ok hrow (by omega : w < row.length)
    by_cases hba : b < a
    · obtain ⟨sup2, h2, hs2⟩ := tighten_ok s v w hv hw rest
        (sup.set j (row.set v b)) (fun x hx => h x (List.mem_cons_of_mem _ hx))
        (SupOk_set hs hrow v b)
      refine ⟨sup2, ?_, hs2⟩
      simp only [_tighten_loop, bind, Except.bind, Except.instMonad, hj, ha,
        hb, if_pos hba, npSet2_ok b hrow (by omega : v < row.length), h2]
    · obtain ⟨sup2, h2, hs2⟩ := tighten_ok s v w hv hw rest sup
        (fun x hx => h x (List.mem_cons_of_mem _ hx)) hs
      refine ⟨sup2, ?_, hs2⟩
      simp only [_tighten_loop, bind, Except.bind, Except.instMonad, hj, ha,
        hb, if_neg hba]
      exact h2

theorem init_inner_ok (s : GraphStateCircuit) (n Pv Lv v : Nat)
    (hv : v < s.graph.nodes.length) :
    ∀ (l : List Nat) (sup : List (List Nat)),
    (∀ i ∈ l, i ∈ s.input_nodes) → SupOk s sup →
    ∃ sup2, _init_status_inner sup (vertex2index s.input_nodes) n Pv Lv v l =
      .ok sup2 ∧ SupOk s sup2
  | [], sup, _, hs => ⟨sup, rfl, hs⟩
  | i :: rest, sup, h, hs => by
    obtain ⟨j, hj, hjl⟩ := vertex2index_ok (h i (List.mem_cons_self _ _))
    have hjs : j < sup.length := by rw [hs.1]; exact hjl
    obtain ⟨row, hrow⟩ := get2?_of_lt hjs
    have hrl : row.length = s.graph.nodes.length :=
      hs.2 row (List.get?_mem hrow)
    have hvr : v < row.length := by omega
    by_cases hip : i = Pv
    · obtain ⟨sup2, h2, hs2⟩ := init_inner_ok s n Pv Lv v hv rest
        (sup.set j (row.set v Lv)) (fun x hx => h x (List.mem_cons_of_mem _ hx))
        (SupOk_set hs hrow v Lv)
      refine ⟨sup2, ?_, hs2⟩
      simp only [_init_status_inner, bind, Except.bind, Except.instMonad, hj,
        if_pos hip, npSet2_ok Lv hrow hvr, h2]
    · obtain ⟨sup2, h2, hs2⟩ := init_inner_ok s n Pv Lv v hv rest
        (sup.set j (row.set v n)) (fun x hx => h x (List.mem_cons_of_mem _ hx))
        (SupOk_set hs hrow v n)
      refine ⟨sup2, ?_, hs2⟩
      simp only [_init_status_inner, bind, Except.bind, Except.instMonad, hj,
        if_neg hip, npSet2_ok n hrow hvr, h2]

theorem init_loop_ok (s : GraphStateCircuit) (P L : List Nat)
    (hP : P.length = s.graph.nodes.length)
    (hL : L.length = s.graph.nodes.length)
    (hnodes : ∀ u ∈ s.graph.nodes, u < s.graph.nodes.length) :
    ∀ (l : List Nat) (sup : List (List Nat)) (status : List Nat),
    (∀ u ∈ l, u ∈ s.graph.nodes) → SupOk s sup →
    status.length = s.graph.nodes.length →
    ∃ sup2 status2,
      _init_status_loop s (vertex2index s.input_nodes) P L l sup status =
        .ok (sup2, status2) ∧
      SupOk s sup2 ∧ status2.length = s.graph.nodes.length ∧
      (∀ u ∈ l, status2.get? u =
        some (if u ∈ s.output_nodes then 2 else 0)) ∧
      (∀ u, u ∉ l → status2.get? u = status.get? u)
  | [], sup, status, _, hs, hst =>
    ⟨sup, status, rfl, hs, hst, by simp, fun _ _ => rfl⟩
  | v :: rest, sup, status, h, hs, hst => by
    have hvn : v < s.graph.nodes.length := hnodes v (h v (List.mem_cons_self _ _))
    obtain ⟨Pv, hPv, _⟩ := npGet_of_lt (a := P) (i := v) (by omega)
    obtain ⟨Lv, hLv, _⟩ := npGet_of_lt (a := L) (i := v) (by omega)
    obtain ⟨sup1, h1, hs1⟩ := init_inner_ok s s.graph.nodes.length Pv Lv v hvn
      s.input_nodes sup (fun _ hx => hx) hs
    have hset : npSet status v (if v ∈ s.output_nodes then 2 else 0) =
        .ok (status.set v (if v ∈ s.output_nodes then 2 else 0)) :=
      npSet_ok _ (by omega)
    obtain ⟨sup2, status2, h2, hs2, hl2, hin2, hout2⟩ := init_loop_ok s P L hP hL
      hnodes rest sup1 (status.set v (if v ∈ s.output_nodes then 2 else 0))
      (fun x hx => h x (List.mem_cons_of_mem _ hx)) hs1
      (by rw [List.length_set]; omega)
    refine ⟨sup2, status2, ?_, hs2, hl2, ?_, ?_⟩
    · simp only [_init_status_loop, bind, Except.bind, Except.instMonad, hPv,
        hLv, h1, hset, h2]
    · intro u hu
      rcases List.mem_cons.mp hu with rfl | hu
      · by_cases hur : u ∈ rest
        · exact hin2 u hur
        · rw [hout2 u hur]
          exact get?_set_self (by omega)
      · exact hin2 u hu
    · intro u hu
      have hune : u ≠ v := by
        intro hc
        exact hu (hc ▸ List.mem_cons_self _ _)
      have hur : u ∉ rest := fun hc => hu (List.mem_cons_of_mem _ hc)
      rw [hout2 u hur, List.get?_set_ne _ _ (Ne.symm hune)]

/-- Combined induction over the influencing-walk traversal: under the
well-formedness hypotheses and with a mutually-referential adjacent pair
`v0, w0` of non-output vertices in the successor map, the traversal always
returns without error given enough fuel, preserves the invariants, never
resolves `v0` or `w0` (they stay pending whenever traversed), only turns
unvisited entries into pending/resolved ones, and strictly decreases the
number of unvisited entries. -/
theorem traverse_cycle_main (s : GraphStateCircuit) (f : List (Nat × Nat))
    (v0 w0 : Nat)
    (hnodes : ∀ u ∈ s.graph.nodes, u < s.graph.nodes.length)
    (hedges : ∀ e ∈ s.graph.edges, e.1 ∈ s.graph.nodes ∧ e.2 ∈ s.graph.nodes)
    (hf : ∀ u ∈ s.graph.nodes, u ∉ s.output_nodes → ∃ x, dictLookup f u = .ok x)
    (hv0 : v0 ∈ s.graph.nodes) (hw0 : w0 ∈ s.graph.nodes)
    (hv0o : v0 ∉ s.output_nodes) (hw0o : w0 ∉ s.output_nodes)
    (hne : v0 ≠ w0)
    (hadj1 : w0 ∈ s.graph.neighbors v0) (hadj2 : v0 ∈ s.graph.neighbors w0)
    (hfv0 : dictLookup f v0 = .ok w0) (hfw0 : dictLookup f w0 = .ok v0) :
    ∀ fuel : Nat,
    (∀ (sup : List (List Nat)) (status : List Nat) (v : Nat),
      SupOk s sup → StatusOk s status → PairOk v0 w0 status →
      v ∈ s.graph.nodes → v ∉ s.output_nodes →
      status.get? v = some 0 →
      countZeros status * (2 * s.graph.edges.length + 2) ≤ fuel →
      ∃ sup2 status2,
        _traverse_infl_walk s f sup status v fuel = .ok (sup2, status2) ∧
        SupOk s sup2 ∧ StatusOk s status2 ∧ PairOk v0 w0 status2 ∧
        (∀ k, status2.get? k = some 0 → status.get? k = some 0) ∧
        (∀ k, k ≠ v → status.get? k ≠ some 0 →
          status2.get? k = status.get? k) ∧
        (status2.get? v = some 1 ∨ status2.get? v = some 2) ∧
        ((v = v0 ∨ v = w0) → status2.get? v = some 1) ∧
        countZeros status2 + 1 ≤ countZeros status) ∧
    (∀ (l : List Nat) (sup : List (List Nat)) (status : List Nat) (v : Nat),
      SupOk s sup → StatusOk s status → PairOk v0 w0 status →
      v ∈ s.graph.nodes → v ∉ s.output_nodes →
      (∀ k ∈ l, k ∈ s.graph.nodes) →
      status.get? v = some 1 →
      l.length + countZeros status * (2 * s.graph.edges.length + 2) + 1 ≤ fuel →
      ∃ sup2 status2 early,
        _traverse_loop s f sup status v l fuel = .ok ((sup2, status2), early) ∧
        SupOk s sup2 ∧ StatusOk s status2 ∧ PairOk v0 w0 status2 ∧
        (∀ k, status2.get? k = some 0 → status.get? k = some 0) ∧
        (∀ k, status.get? k ≠ some 0 → status2.get? k = status.get? k) ∧
        countZeros status2 ≤ countZeros status ∧
        (early = false → (v = v0 → w0 ∉ l) ∧ (v = w0 → v0 ∉ l))) := by
  intro fuel
  induction fuel with
  | zero =>
    constructor
    · intro sup status v _ hst _ _ _ hsv hfuel
      have hz : 1 ≤ countZeros status := countZeros_pos hsv
      have : 2 ≤ countZeros status * (2 * s.graph.edges.length + 2) :=
        le_trans (by omega) (Nat.mul_le_mul_right _ hz)
      omega
    · intro l sup status v _ _ _ _ _ _ _ hfuel
      omega
  | succ fuel ih =>
    obtain ⟨ihw, ihl⟩ := ih
    constructor
    · -- walk case
      intro sup status v hsup hst hpair hv hvo hsv hfuel
      have hvn : v < s.graph.nodes.length := hnodes v hv
      have hvlen : v < status.length := by rw [hst.1]; exact hvn
      have hset1 : npSet status v 1 = .ok (status.set v 1) := npSet_ok 1 hvlen
      have hz1 : countZeros (status.set v 1) + 1 = countZeros status :=
        countZeros_set_zero hsv (by omega)
      have hst1 : StatusOk s (status.set v 1) := by
        refine ⟨by rw [List.length_set]; exact hst.1, ?_, ?_⟩
        · intro k x hk
          by_cases hkv : k = v
          · subst hkv
            rw [get?_set_self hvlen] at hk
            injection hk with hk
            omega
          · rw [List.get?_set_ne _ _ (fun hc => hkv hc.symm)] at hk
            exact hst.2.1 k x hk
        · intro u hu huo
          have huv : u ≠ v := fun hc => hvo (hc ▸ huo)
          rw [List.get?_set_ne _ _ (fun hc => huv hc.symm)]
          exact hst.2.2 u hu huo
      have hpair1 : PairOk v0 w0 (status.set v 1) := by
        constructor
        · by_cases hvv : v = v0
          · subst hvv
            rw [get?_set_self hvlen]
            simp
          · rw [List.get?_set_ne _ _ hvv]
            exact hpair.1
        · by_cases hvv : v = w0
          · subst hvv
            rw [get?_set_self hvlen]
            simp
          · rw [List.get?_set_ne _ _ hvv]
            exact hpair.2
      have hs1v : (status.set v 1).get? v = some 1 := get?_set_self hvlen
      have hnb : nxNeighbors s.graph v = .ok (s.graph.neighbors v) := by
        simp [nxNeighbors, hv]
      have hlsub := neighbors_mem_nodes hedges v
      have hlen := neighbors_length_le s.graph v
      have hmulsplit : countZeros status * (2 * s.graph.edges.length + 2) =
          countZeros (status.set v 1) * (2 * s.graph.edges.length + 2) +
          (2 * s.graph.edges.length + 2) := by
        rw [← hz1]
        ring
      have hLInv : (s.graph.neighbors v).length +
          countZeros (status.set v 1) * (2 * s.graph.edges.length + 2) + 1 ≤
          fuel := by omega
      obtain ⟨sup2, status2, early, hloop, hsup2, hst2, hpair2, hmono2,
        hfroz2, hcnt2, hearly2⟩ := ihl (s.graph.neighbors v) sup
        (status.set v 1) v hsup hst1 hpair1 hv hvo hlsub hs1v hLInv
      cases early with
      | true =>
        refine ⟨sup2, status2, ?_, hsup2, hst2, hpair2, ?_, ?_, ?_, ?_, ?_⟩
        · simp only [_traverse_infl_walk, bind, Except.bind, Except.instMonad,
            hset1, hnb, hloop]
          rfl
        · intro k hk
          have hk1 := hmono2 k hk
          have hkv : k ≠ v := by
            intro hc
            subst hc
            rw [hs1v] at hk1
            simp at hk1
          rw [List.get?_set_ne _ _ (fun hc => hkv hc.symm)] at hk1
          exact hk1
        · intro k hkv hk
          have hk1 : (status.set v 1).get? k = status.get? k :=
            List.get?_set_ne _ _ (fun hc => hkv hc.symm)
          rw [hfroz2 k (by rw [hk1]; exact hk), hk1]
        · left
          rw [hfroz2 v (by rw [hs1v]; simp), hs1v]
        · intro _
          rw [hfroz2 v (by rw [hs1v]; simp), hs1v]
        · omega
      | false =>
        have hnotpair : ¬(v = v0 ∨ v = w0) := by
          rintro (rfl | rfl)
          · exact ((hearly2 rfl).1 rfl) hadj1
          · exact ((hearly2 rfl).2 rfl) hadj2
        have hs2v : status2.get? v = some 1 := by
          rw [hfroz2 v (by rw [hs1v]; simp), hs1v]
        have hvlen2 : v < status2.length := by rw [hst2.1]; exact hvn
        have hset2 : npSet status2 v 2 = .ok (status2.set v 2) :=
          npSet_ok 2 hvlen2
        refine ⟨sup2, status2.set v 2, ?_, hsup2, ?_, ?_, ?_, ?_, ?_, ?_, ?_⟩
        · simp only [_traverse_infl_walk, bind, Except.bind, Except.instMonad,
            hset1, hnb, hloop, Bool.false_eq_true, if_false, hset2]
          rfl
        · refine ⟨by rw [List.length_set]; exact hst2.1, ?_, ?_⟩
          · intro k x hk
            by_cases hkv : k = v
            · subst hkv
              rw [get?_set_self hvlen2] at hk
              injection hk with hk
              omega
            · rw [List.get?_set_ne _ _ (fun hc => hkv hc.symm)] at hk
              exact hst2.2.1 k x hk
          · intro u hu huo
            have huv : u ≠ v := fun hc => hvo (hc ▸ huo)
            rw [List.get?_set_ne _ _ (fun hc => huv hc.symm)]
            exact hst2.2.2 u hu huo
        · constructor
          · have : v ≠ v0 := fun hc => hnotpair (Or.inl hc)
            rw [List.get?_set_ne _ _ this]
            exact hpair2.1
          · have : v ≠ w0 := fun hc => hnotpair (Or.inr hc)
            rw [List.get?_set_ne _ _ this]
            exact hpair2.2
        · intro k hk
          have hkv : k ≠ v := by
            intro hc
            subst hc
            rw [get?_set_self hvlen2] at hk
            simp at hk
          rw [List.get?_set_ne _ _ (fun hc => hkv hc.symm)] at hk
          have hk1 := hmono2 k hk
          rw [List.get?_set_ne _ _ (fun hc => hkv hc.symm)] at hk1
          exact hk1
        · intro k hkv hk
          have hk1 : (status.set v 1).get? k = status.get? k :=
            List.get?_set_ne _ _ (fun hc => hkv hc.symm)
          rw [List.get?_set_ne _ _ (fun hc => hkv hc.symm),
            hfroz2 k (by rw [hk1]; exact hk), hk1]
        · right
          exact get?_set_self hvlen2
        · intro hp
          exact absurd hp hnotpair
        · have : countZeros (status2.set v 2) = countZeros status2 :=
            countZeros_set_nonzero hs2v (by omega) (by omega)
          omega
    · -- loop case
      intro l sup status v hsup hst hpair hv hvo hl hsv1 hfuel
      match l, hl, hfuel with
      | [], _, _ =>
        exact ⟨sup, status, false, rfl, hsup, hst, hpair, fun _ hk => hk,
          fun _ _ => rfl, le_refl _, fun _ => ⟨fun _ => List.not_mem_nil _,
            fun _ => List.not_mem_nil _⟩⟩
      | w :: ws, hl, hfuel => ?_
      obtain ⟨fv, hfveq⟩ := hf v hv hvo
      have hvn : v < s.graph.nodes.length := hnodes v hv
      by_cases hcond : w = fv ∧ w ≠ v
      · have hw_node : w ∈ s.graph.nodes := hl w (List.mem_cons_self _ _)
        have hwn : w < s.graph.nodes.length := hnodes w hw_node
        have hwlen : w < status.length := by rw [hst.1]; exact hwn
        obtain ⟨sw, hswget, hswsome⟩ := npGet_of_lt hwlen
        by_cases hsw0 : sw = 0
        · subst hsw0
          have hwo : w ∉ s.output_nodes := by
            intro hc
            exact hst.2.2 w hw_node hc hswsome
          have hwfuel : countZeros status * (2 * s.graph.edges.length + 2) ≤
              fuel := by
            simp only [List.length_cons] at hfuel
            omega
          obtain ⟨sup2, status2, hwalk, hsup2, hst2, hpair2, hmono2, hfroz2,
            hself2, hselfpair2, hcnt2⟩ := ihw sup status w hsup hst hpair
            hw_node hwo hswsome hwfuel
          rcases hself2 with hs2w | hs2w
          · -- recursion left w pending: early return
            refine ⟨sup2, status2, true, ?_, hsup2, hst2, hpair2, hmono2,
              ?_, by omega, fun hc => by simp at hc⟩
            · simp only [_traverse_loop, bind, Except.bind, Except.instMonad,
                Except.pure, hfveq, if_pos hcond, hswget, hwalk,
                npGet_ok_iff.mpr hs2w]
              rfl
            · intro k hk
              have hkw : k ≠ w := by
                intro hc
                subst hc
                exact hk hswsome
              exact hfroz2 k hkw hk
          · -- w resolved: tighten and continue
            have hwnotpair : ¬(w = v0 ∨ w = w0) := by
              intro hp
              rw [hselfpair2 hp] at hs2w
              simp at hs2w
            obtain ⟨sup3, htight, hsup3⟩ := tighten_ok s v w hvn hwn
              s.input_nodes sup2 (fun _ hx => hx) hsup2
            have hs2v : status2.get? v = some 1 := by
              have hvw : v ≠ w := fun hc => hcond.2 hc.symm
              rw [hfroz2 v hvw (by rw [hsv1]; simp), hsv1]
            have hmul2 : countZeros status2 * (2 * s.graph.edges.length + 2) ≤
                countZeros status * (2 * s.graph.edges.length + 2) :=
              Nat.mul_le_mul_right _ (by omega)
            have htfuel : ws.length +
                countZeros status2 * (2 * s.graph.edges.length + 2) + 1 ≤
                fuel := by
              simp only [List.length_cons] at hfuel
              omega
            obtain ⟨sup4, status4, early4, htail, hsup4, hst4, hpair4, hmono4,
              hfroz4, hcnt4, hearly4⟩ := ihl ws sup3 status2 v hsup3 hst2
              hpair2 hv hvo (fun k hk => hl k (List.mem_cons_of_mem _ hk))
              hs2v htfuel
            refine ⟨sup4, status4, early4, ?_, hsup4, hst4, hpair4, ?_, ?_,
              by omega, ?_⟩
            · simp only [_traverse_loop, bind, Except.bind, Except.instMonad,
                Except.pure, hfveq, if_pos hcond, hswget, hwalk,
                npGet_ok_iff.mpr hs2w, htight, htail]
              rfl
            · intro k hk
              exact hmono2 k (hmono4 k hk)
            · intro k hk
              have hkw : k ≠ w := by
                intro hc
                subst hc
                exact hk hswsome
              rw [hfroz4 k (by rw [hfroz2 k hkw hk]; exact hk),
                hfroz2 k hkw hk]
            · intro he4
              obtain ⟨he1, he2⟩ := hearly4 he4
              constructor
              · intro hvv0 hmem
                rcases List.mem_cons.mp hmem with hc | hmem
                · exact hwnotpair (Or.inr hc.symm)
                · exact he1 hvv0 hmem
              · intro hvw0 hmem
                rcases List.mem_cons.mp hmem with hc | hmem
                · exact hwnotpair (Or.inl hc.symm)
                · exact he2 hvw0 hmem
        · -- no recursion
          by_cases hsw1 : sw = 1
          · subst hsw1
            refine ⟨sup, status, true, ?_, hsup, hst, hpair, fun _ hk => hk,
              fun _ _ => rfl, le_refl _, fun hc => by simp at hc⟩
            simp only [_traverse_loop, bind, Except.bind, Except.instMonad,
              Except.pure, hfveq, if_pos hcond, hswget]
            rfl
          · have hsw2 : sw = 2 := by
              have := hst.2.1 w sw hswsome
              omega
            subst hsw2
            obtain ⟨sup3, htight, hsup3⟩ := tighten_ok s v w hvn hwn
              s.input_nodes sup (fun _ hx => hx) hsup
            have htfuel : ws.length +
                countZeros status * (2 * s.graph.edges.length + 2) + 1 ≤
                fuel := by
              simp only [List.length_cons] at hfuel
              omega
            obtain ⟨sup4, status4, early4, htail, hsup4, hst4, hpair4, hmono4,
              hfroz4, hcnt4, hearly4⟩ := ihl ws sup3 status v hsup3 hst
              hpair hv hvo (fun k hk => hl k (List.mem_cons_of_mem _ hk))
              hsv1 htfuel
            refine ⟨sup4, status4, early4, ?_, hsup4, hst4, hpair4, hmono4,
              hfroz4, hcnt4, ?_⟩
            · simp only [_traverse_loop, bind, Except.bind, Except.instMonad,
                Except.pure, hfveq, if_pos hcond, hswget, htight, htail]
              rfl
            · intro he4
              obtain ⟨he1, he2⟩ := hearly4 he4
              constructor
              · intro hvv0 hmem
                rcases List.mem_cons.mp hmem with hc | hmem
                · subst hc
                  subst hvv0
                  exact hpair.2 hswsome
                · exact he1 hvv0 hmem
              · intro hvw0 hmem
                rcases List.mem_cons.mp hmem with hc | hmem
                · subst hc
                  subst hvw0
                  exact hpair.1 hswsome
                · exact he2 hvw0 hmem
      · -- neighbor not followed
        have htfuel : ws.length +
            countZeros status * (2 * s.graph.edges.length + 2) + 1 ≤
            fuel := by
          simp only [List.length_cons] at hfuel
          omega
        obtain ⟨sup4, status4, early4, htail, hsup4, hst4, hpair4, hmono4,
          hfroz4, hcnt4, hearly4⟩ := ihl ws sup status v hsup hst hpair hv
          hvo (fun k hk => hl k (List.mem_cons_of_mem _ hk)) hsv1 htfuel
        refine ⟨sup4, status4, early4, ?_, hsup4, hst4, hpair4, hmono4,
          hfroz4, hcnt4, ?_⟩
        · simp only [_traverse_loop, bind, Except.bind, Except.instMonad,
            Except.pure, hfveq, if_neg hcond, htail]
        · intro he4
          obtain ⟨he1, he2⟩ := hearly4 he4
          constructor
          · intro hvv0 hmem
            rcases List.mem_cons.mp hmem with hc | hmem
            · subst hvv0
              subst hc
              rw [hfveq] at hfv0
              injection hfv0 with hfv0
              exact hcond ⟨hfv0.symm, Ne.symm hne⟩
            · exact he1 hvv0 hmem
          · intro hvw0 hmem
            rcases List.mem_cons.mp hmem with hc | hmem
            · subst hvw0
              subst hc
              rw [hfveq] at hfw0
              injection hfw0 with hfw0
              exact hcond ⟨hfw0.symm, hne⟩
            · exact he2 hvw0 hmem

/-- The vertex loop of `_compute_suprema` reports no flow (Python `None`)
whenever the pending cycle pair `v0, w0` appears among the vertices still to
process. -/
theorem suprema_loop_noflow (s : GraphStateCircuit) (f : List (Nat × Nat))
    (v0 w0 : Nat)
    (hnodes : ∀ u ∈ s.graph.nodes, u < s.graph.nodes.length)
    (hedges : ∀ e ∈ s.graph.edges, e.1 ∈ s.graph.nodes ∧ e.2 ∈ s.graph.nodes)
    (hf : ∀ u ∈ s.graph.nodes, u ∉ s.output_nodes → ∃ x, dictLookup f u = .ok x)
    (hv0 : v0 ∈ s.graph.nodes) (hw0 : w0 ∈ s.graph.nodes)
    (hv0o : v0 ∉ s.output_nodes) (hw0o : w0 ∉ s.output_nodes)
    (hne : v0 ≠ w0)
    (hadj1 : w0 ∈ s.graph.neighbors v0) (hadj2 : v0 ∈ s.graph.neighbors w0)
    (hfv0 : dictLookup f v0 = .ok w0) (hfw0 : dictLookup f w0 = .ok v0) :
    ∀ (l : List Nat) (sup : List (List Nat)) (status : List Nat),
    SupOk s sup → StatusOk s status → PairOk v0 w0 status →
    (∀ u ∈ l, u ∈ s.graph.nodes ∧ u ∉ s.output_nodes) →
    v0 ∈ l →
    _suprema_loop s f l sup status = .ok none
  | [], _, _, _, _, _, _, hmem => absurd hmem (List.not_mem_nil _)
  | u :: rest, sup, status, hsup, hst, hpair, hl, hmem => by
    have hun : u ∈ s.graph.nodes := (hl u (List.mem_cons_self _ _)).1
    have huo : u ∉ s.output_nodes := (hl u (List.mem_cons_self _ _)).2
    have hulen : u < status.length := by
      rw [hst.1]
      exact hnodes u hun
    obtain ⟨su, hsuget, hsusome⟩ := npGet_of_lt hulen
    have hzle : countZeros status * (2 * s.graph.edges.length + 2) ≤
        s.graph.nodes.length * (2 * s.graph.edges.length + 2) := by
      refine Nat.mul_le_mul_right _ ?_
      have h1 := countZeros_le status
      rw [hst.1] at h1
      exact h1
    by_cases hsu0 : su = 0
    · subst hsu0
      obtain ⟨sup2, status2, hwalk, hsup2, hst2, hpair2, hmono2, hfroz2,
        hself2, hselfpair2, hcnt2⟩ :=
        (traverse_cycle_main s f v0 w0 hnodes hedges hf hv0 hw0 hv0o hw0o
          hne hadj1 hadj2 hfv0 hfw0
          (s.graph.nodes.length * (2 * s.graph.edges.length + 2) + 1)).1
          sup status u hsup hst hpair hun huo hsusome
          (le_trans hzle (Nat.le_succ _))
      rcases hself2 with hs2u | hs2u
      · simp only [_suprema_loop, bind, Except.bind, Except.instMonad,
          Except.pure, hsuget, hwalk, npGet_ok_iff.mpr hs2u]
        rfl
      · have hunotpair : ¬(u = v0 ∨ u = w0) := by
          intro hp
          rw [hselfpair2 hp] at hs2u
          simp at hs2u
        have hv0rest : v0 ∈ rest := by
          rcases List.mem_cons.mp hmem with hc | hc
          · exact absurd (Or.inl hc.symm) hunotpair
          · exact hc
        have hrec := suprema_loop_noflow s f v0 w0 hnodes hedges hf hv0 hw0
          hv0o hw0o hne hadj1 hadj2 hfv0 hfw0 rest sup2 status2 hsup2 hst2
          hpair2 (fun x hx => hl x (List.mem_cons_of_mem _ hx)) hv0rest
        simp only [_suprema_loop, bind, Except.bind, Except.instMonad,
          Except.pure, hsuget, hwalk, npGet_ok_iff.mpr hs2u, hrec]
        rfl
    · by_cases hsu1 : su = 1
      · subst hsu1
        simp only [_suprema_loop, bind, Except.bind, Except.instMonad,
          Except.pure, hsuget]
        rfl
      · have hsu2 : su = 2 := by
          have := hst.2.1 u su hsusome
          omega
        subst hsu2
        have huv0 : u ≠ v0 := by
          intro hc
          subst hc
          exact hpair.1 hsusome
        have hv0rest : v0 ∈ rest := by
          rcases List.mem_cons.mp hmem with hc | hc
          · exact absurd hc.symm huv0
          · exact hc
        have hrec := suprema_loop_noflow s f v0 w0 hnodes hedges hf hv0 hw0
          hv0o hw0o hne hadj1 hadj2 hfv0 hfw0 rest sup status hsup hst
          hpair (fun x hx => hl x (List.mem_cons_of_mem _ hx)) hv0rest
        simp only [_suprema_loop, bind, Except.bind, Except.instMonad,
          Except.pure, hsuget, hrec]
        rfl

/-- C4: whenever the successor map contains a two-cycle between adjacent
non-output vertices (each the graph-neighbor and successor of the other),
`_compute_suprema` terminates and reports the no-flow outcome `None` — for
any state, any successor map defined on the non-output vertices, and any
origin/depth arrays of the right length, with vertex labels in range.  The
recursion leaving such a vertex pending is precisely what the proof of
`traverse_cycle_main` propagates to the abort in the vertex loop. -/
theorem compute_suprema_cycle_noflow (s : GraphStateCircuit)
    (f : List (Nat × Nat)) (P L : List Nat) (v0 w0 : Nat)
    (hnodes : ∀ u ∈ s.graph.nodes, u < s.graph.nodes.length)
    (hedges : ∀ e ∈ s.graph.edges, e.1 ∈ s.graph.nodes ∧ e.2 ∈ s.graph.nodes)
    (hf : ∀ u ∈ s.graph.nodes, u ∉ s.output_nodes → ∃ x, dictLookup f u = .ok x)
    (hP : P.length = s.graph.nodes.length)
    (hL : L.length = s.graph.nodes.length)
    (hv0 : v0 ∈ s.graph.nodes) (hw0 : w0 ∈ s.graph.nodes)
    (hv0o : v0 ∉ s.output_nodes) (hw0o : w0 ∉ s.output_nodes)
    (hne : v0 ≠ w0)
    (hadj1 : w0 ∈ s.graph.neighbors v0) (hadj2 : v0 ∈ s.graph.neighbors w0)
    (hfv0 : dictLookup f v0 = .ok w0) (hfw0 : dictLookup f w0 = .ok v0) :
    _compute_suprema s f P L = .ok none := by
  have hsup0 : SupOk s (List.replicate s.input_nodes.length
      (List.replicate s.graph.nodes.length 0)) := by
    constructor
    · exact List.length_replicate _ _
    · intro r hr
      rw [List.eq_of_mem_replicate hr]
      exact List.length_replicate _ _
  obtain ⟨sup0, status0, hinit, hsup1, hlen1, hin1, hout1⟩ := init_loop_ok s
    P L hP hL hnodes s.graph.nodes
    (List.replicate s.input_nodes.length
      (List.replicate s.graph.nodes.length 0))
    (List.replicate s.graph.nodes.length 0) (fun _ hx => hx) hsup0
    (List.length_replicate _ _)
  have hst1 : StatusOk s status0 := by
    refine ⟨hlen1, ?_, ?_⟩
    · intro k x hk
      by_cases hkn : k ∈ s.graph.nodes
      · rw [hin1 k hkn] at hk
        injection hk with hk
        split at hk <;> omega
      · rw [hout1 k hkn] at hk
        have := List.eq_of_mem_replicate (List.get?_mem hk)
        omega
    · intro u hu huo
      rw [hin1 u hu]
      simp [huo]
  have hpair1 : PairOk v0 w0 status0 := by
    constructor
    · rw [hin1 v0 hv0]
      simp [hv0o]
    · rw [hin1 w0 hw0]
      simp [hw0o]
  have hloop := suprema_loop_noflow s f v0 w0 hnodes hedges hf hv0 hw0 hv0o
    hw0o hne hadj1 hadj2 hfv0 hfw0
    (s.graph.nodes.filter (fun v => decide (v ∉ s.output_nodes))) sup0 status0
    hsup1 hst1 hpair1
    (by
      intro u hu
      rcases List.mem_filter.mp hu with ⟨h1, h2⟩
      exact ⟨h1, by simpa using h2⟩)
    (List.mem_filter.mpr ⟨hv0, by simpa using hv0o⟩)
  have hinit2 : _init_status s P L = .ok (sup0, status0) := hinit
  simp only [_compute_suprema, bind, Except.bind, Except.instMonad, hinit2,
    hloop]

/-- Witness for C4: the two-vertex state with the mutually-referential
successor map terminates with the no-flow outcome. -/
theorem compute_suprema_cycle_noflow_witness :
    _compute_suprema cyclePairState cyclePairSucc [0, 0] [0, 0] = .ok none :=
  compute_suprema_cycle_noflow cyclePairState cyclePairSucc [0, 0] [0, 0] 0 1
    (by decide) (by decide)
    (by
      intro u hu _
      simp only [cyclePairState] at hu
      simp at hu
      rcases hu with rfl | rfl
      · exact ⟨1, rfl⟩
      · exact ⟨0, rfl⟩)
    (by decide) (by decide) (by decide) (by decide) (by decide) (by decide)
    (by decide) (by decide) (by decide) (by rfl) (by rfl)

/-!
Lemmas for the chain-totality claim: closure of the augmenting search over
the graph vertex set, and agreement of the successor map with the cover
along every input chain.
-/

theorem nextI_mem {l : List Nat} {x : Nat} (h : nextI l = .ok x) : x ∈ l := by
  cases l with
  | nil => simp [nextI] at h
  | cons y ys =>
    simp only [nextI] at h
    injection h with h
    simp [h]

theorem predecessors_mem_nodes {s : GraphStateCircuit} {g : DiGraph}
    (hfc : famClosed s (some g)) {v p : Nat} (hp : p ∈ g.predecessors v) :
    p ∈ s.graph.nodes := by
  unfold DiGraph.predecessors at hp
  rcases List.mem_map.mp hp with ⟨e, he, rfl⟩
  exact (hfc.2 e (List.mem_filter.mp he).1).1

theorem addNode_edges (g : DiGraph) (v : Nat) : (g.addNode v).edges = g.edges := by
  unfold DiGraph.addNode
  split <;> rfl

theorem addNode_nodes_mem {g : DiGraph} {v x : Nat}
    (h : x ∈ (g.addNode v).nodes) : x ∈ g.nodes ∨ x = v := by
  unfold DiGraph.addNode at h
  split at h
  · exact Or.inl h
  · rcases List.mem_append.mp h with h | h
    · exact Or.inl h
    · simp at h
      exact Or.inr h

theorem famClosed_add_edge {s : GraphStateCircuit} {g : DiGraph} {u w : Nat}
    (hfc : famClosed s (some g)) (hu : u ∈ s.graph.nodes)
    (hw : w ∈ s.graph.nodes) : famClosed s (some (g.add_edge u w)) := by
  unfold DiGraph.add_edge
  constructor
  · intro x hx
    dsimp only at hx
    split at hx
    · rcases addNode_nodes_mem hx with hx | rfl
      · rcases addNode_nodes_mem hx with hx | rfl
        · exact hfc.1 x hx
        · exact hu
      · exact hw
    · rcases addNode_nodes_mem hx with hx | rfl
      · rcases addNode_nodes_mem hx with hx | rfl
        · exact hfc.1 x hx
        · exact hu
      · exact hw
  · intro e he
    dsimp only at he
    split at he
    · rw [addNode_edges, addNode_edges] at he
      exact hfc.2 e he
    · rcases List.mem_append.mp he with he | he
      · rw [addNode_edges, addNode_edges] at he
        exact hfc.2 e he
      · simp at he
        subst he
        exact ⟨hu, hw⟩

theorem famClosed_remove {s : GraphStateCircuit} {g g2 : DiGraph} {u w : Nat}
    (hfc : famClosed s (some g)) (h : nxRemoveEdge g u w = .ok g2) :
    famClosed s (some g2) := by
  unfold nxRemoveEdge at h
  split at h
  · injection h with h
    subst h
    exact ⟨hfc.1, fun e he => hfc.2 e (List.mem_filter.mp he).1⟩
  · simp at h

theorem famGet_ok {fam : Option DiGraph} {g : DiGraph}
    (h : famGet fam = .ok g) : fam = some g := by
  cases fam with
  | none => simp [famGet] at h
  | some g2 =>
    simp only [famGet] at h
    injection h with h
    rw [h]

theorem nxNeighbors_ok_eq {g : Graph} {v : Nat} {nbrs : List Nat}
    (h : nxNeighbors g v = .ok nbrs) : nbrs = g.neighbors v ∧ v ∈ g.nodes := by
  unfold nxNeighbors at h
  split at h
  · injection h with h
    exact ⟨h.symm, by assumption⟩
  · exact absurd h (by simp)

theorem nxNeighbors_ok_subset {s : GraphStateCircuit}
    (hedges : ∀ e ∈ s.graph.edges, e.1 ∈ s.graph.nodes ∧ e.2 ∈ s.graph.nodes)
    {v : Nat} {nbrs : List Nat} (h : nxNeighbors s.graph v = .ok nbrs) :
    ∀ k ∈ nbrs, k ∈ s.graph.nodes := by
  rw [(nxNeighbors_ok_eq h).1]
  exact neighbors_mem_nodes hedges v

/-- The augmenting search only ever mentions graph vertices in the family it
returns (the `None` family of the buggy branch is trivially closed). -/
theorem aug_closed (s : GraphStateCircuit)
    (hedges : ∀ e ∈ s.graph.edges, e.1 ∈ s.graph.nodes ∧ e.2 ∈ s.graph.nodes) :
    ∀ fuel : Nat,
    (∀ fam iter visited v res, famClosed s fam → v ∈ s.graph.nodes →
      _augmented_search s fam iter visited v fuel = .ok res →
      famClosed s res.1) ∧
    (∀ l fam iter visited v res, famClosed s fam → v ∈ s.graph.nodes →
      (∀ k ∈ l, k ∈ s.graph.nodes) →
      _augmented_loop s fam iter visited v l fuel = .ok res →
      famClosed s res.1) := by
  intro fuel
  induction fuel with
  | zero =>
    constructor
    · intro fam iter visited v res _ _ hsucc
      exact absurd hsucc (by simp [_augmented_search])
    · intro l fam iter visited v res hfc _ _ hsucc
      cases l with
      | nil =>
        simp only [_augmented_loop] at hsucc
        injection hsucc with hsucc
        rw [← hsucc]
        exact hfc
      | cons w ws => exact absurd hsucc (by simp [_augmented_loop])
  | succ fuel ih =>
    obtain ⟨ihw, ihl⟩ := ih
    constructor
    · intro fam iter visited v res hfc hv hsucc
      rw [_augmented_search] at hsucc
      simp only [bind, Except.bind, Except.instMonad] at hsucc
      split at hsucc
      · exact Except.noConfusion hsucc
      rename_i visited1 heqv1
      split at hsucc
      · -- v is an output: returns (fam, visited, 1)
        simp only [pure, Except.pure] at hsucc
        injection hsucc with hsucc
        rw [← hsucc]
        exact hfc
      split at hsucc
      · exact Except.noConfusion hsucc
      rename_i g heqfam
      have hfam := famGet_ok heqfam
      subst hfam
      split at hsucc
      case _ hguard =>
        -- v already claimed and not an input
        split at hsucc
        · exact Except.noConfusion hsucc
        rename_i p heqp
        have hp : p ∈ s.graph.nodes :=
          predecessors_mem_nodes hfc (nextI_mem heqp)
        split at hsucc
        · exact Except.noConfusion hsucc
        rename_i pv heqpv
        split at hsucc
        case _ hlt =>
          split at hsucc
          · exact Except.noConfusion hsucc
          rename_i r heqrec
          have hrec := ihw _ _ _ _ _ hfc hp heqrec
          split at hsucc
          case _ hstat =>
            -- re-rooting succeeded: family replaced by None
            split at hsucc
            · exact Except.noConfusion hsucc
            rename_i g2 heqg2
            split at hsucc
            · exact Except.noConfusion hsucc
            rename_i p2 heqp2
            split at hsucc
            · exact Except.noConfusion hsucc
            rename_i g3 heqg3
            simp only [pure, Except.pure] at hsucc
            injection hsucc with hsucc
            rw [← hsucc]
            exact trivial
          case _ hstat =>
            split at hsucc
            · exact Except.noConfusion hsucc
            rename_i nbrs heqnb
            exact ihl _ _ _ _ _ _ hrec hv (nxNeighbors_ok_subset hedges heqnb)
              hsucc
        case _ hlt =>
          split at hsucc
          · exact Except.noConfusion hsucc
          rename_i nbrs heqnb
          exact ihl _ _ _ _ _ _ hfc hv (nxNeighbors_ok_subset hedges heqnb)
            hsucc
      case _ hguard =>
        split at hsucc
        · exact Except.noConfusion hsucc
        rename_i nbrs heqnb
        exact ihl _ _ _ _ _ _ hfc hv (nxNeighbors_ok_subset hedges heqnb)
          hsucc
    · intro l fam iter visited v res hfc hv hl hsucc
      cases l with
      | nil =>
        simp only [_augmented_loop] at hsucc
        injection hsucc with hsucc
        rw [← hsucc]
        exact hfc
      | cons w ws =>
        have hw : w ∈ s.graph.nodes := hl w (List.mem_cons_self _ _)
        have hws : ∀ k ∈ ws, k ∈ s.graph.nodes :=
          fun k hk => hl k (List.mem_cons_of_mem _ hk)
        rw [_augmented_loop] at hsucc
        simp only [bind, Except.bind, Except.instMonad] at hsucc
        split at hsucc
        · exact Except.noConfusion hsucc
        rename_i vw heqvw
        split at hsucc
        case _ hcand =>
          split at hsucc
          · exact Except.noConfusion hsucc
          rename_i g heqfam
          have hfam := famGet_ok heqfam
          subst hfam
          split at hsucc
          case _ hnoedge =>
            split at hsucc
            case _ hunclaimed =>
              split at hsucc
              · exact Except.noConfusion hsucc
              rename_i r heqrec
              have hrec := ihw _ _ _ _ _ hfc hw heqrec
              split at hsucc
              case _ hstat =>
                split at hsucc
                · exact Except.noConfusion hsucc
                rename_i g2 heqg2
                have hg2 := famGet_ok heqg2
                rw [hg2] at hrec
                simp only [pure, Except.pure] at hsucc
                injection hsucc with hsucc
                rw [← hsucc]
                exact famClosed_add_edge hrec hv hw
              case _ hstat =>
                exact ihl _ _ _ _ _ _ hrec hv hws hsucc
            case _ hclaimed =>
              split at hsucc
              · exact Except.noConfusion hsucc
              rename_i pw heqpw
              have hpw : pw ∈ s.graph.nodes :=
                predecessors_mem_nodes hfc (nextI_mem heqpw)
              split at hsucc
              · exact Except.noConfusion hsucc
              rename_i vpw heqvpw
              split at hsucc
              case _ hlt =>
                split at hsucc
                · exact Except.noConfusion hsucc
                rename_i r heqrec
                have hrec := ihw _ _ _ _ _ hfc hpw heqrec
                split at hsucc
                case _ hstat =>
                  split at hsucc
                  · exact Except.noConfusion hsucc
                  rename_i g2 heqg2
                  have hg2 := famGet_ok heqg2
                  rw [hg2] at hrec
                  split at hsucc
                  · exact Except.noConfusion hsucc
                  rename_i pw2 heqpw2
                  split at hsucc
                  · exact Except.noConfusion hsucc
                  rename_i g3 heqg3
                  simp only [pure, Except.pure] at hsucc
                  injection hsucc with hsucc
                  rw [← hsucc]
                  exact famClosed_add_edge (famClosed_remove hrec heqg3) hv hw
                case _ hstat =>
                  exact ihl _ _ _ _ _ _ hrec hv hws hsucc
              case _ hlt =>
                exact ihl _ _ _ _ _ _ hfc hv hws hsucc
          case _ hedge =>
            exact ihl _ _ _ _ _ _ hfc hv hws hsucc
        case _ hcand =>
          exact ihl _ _ _ _ _ _ hfc hv hws hsucc

theorem build_cover_closed (s : GraphStateCircuit)
    (hedges : ∀ e ∈ s.graph.edges, e.1 ∈ s.graph.nodes ∧ e.2 ∈ s.graph.nodes)
    (fuel0 : Nat) :
    ∀ (l : List Nat) (fam : Option DiGraph) (visited : List Nat) (iter : Nat)
      (g : DiGraph),
    famClosed s fam → (∀ i ∈ l, i ∈ s.graph.nodes) →
    _build_cover_loop s fuel0 l fam visited iter = .ok (some g) →
    famClosed s (some g)
  | [], fam, visited, iter, g, hfc, _, hsucc => by
    simp only [_build_cover_loop, bind, Except.bind, Except.instMonad] at hsucc
    split at hsucc
    · exact Except.noConfusion hsucc
    rename_i g2 heqg2
    have := famGet_ok heqg2
    subst this
    split at hsucc
    · simp only [pure, Except.pure] at hsucc
      injection hsucc with hsucc
      injection hsucc with hsucc
      rw [← hsucc]
      exact hfc
    · simp only [pure, Except.pure] at hsucc
      injection hsucc with hsucc
      exact Option.noConfusion hsucc
  | i :: rest, fam, visited, iter, g, hfc, hl, hsucc => by
    have hi : i ∈ s.graph.nodes := hl i (List.mem_cons_self _ _)
    simp only [_build_cover_loop, bind, Except.bind, Except.instMonad] at hsucc
    split at hsucc
    · exact Except.noConfusion hsucc
    rename_i r heqrec
    have hrec := ((aug_closed s hedges fuel0).1 _ _ _ _ _ hfc hi heqrec)
    split at hsucc
    · simp only [pure, Except.pure] at hsucc
      injection hsucc with hsucc
      exact Option.noConfusion hsucc
    · exact build_cover_closed s hedges fuel0 rest _ _ _ g hrec
        (fun k hk => hl k (List.mem_cons_of_mem _ hk)) hsucc

theorem build_path_cover_closed (s : GraphStateCircuit)
    (hedges : ∀ e ∈ s.graph.edges, e.1 ∈ s.graph.nodes ∧ e.2 ∈ s.graph.nodes)
    (hin : ∀ i ∈ s.input_nodes, i ∈ s.graph.nodes) {C : DiGraph}
    (hb : _build_path_cover s = .ok (some C)) : famClosed s (some C) := by
  unfold _build_path_cover at hb
  exact build_cover_closed s hedges _ s.input_nodes (some DiGraph.empty) _ 0 C
    ⟨by simp [DiGraph.empty], by simp [DiGraph.empty]⟩ hin hb

theorem nextI_ok_head {l : List Nat} {x : Nat} (h : nextI l = .ok x) :
    l.head? = some x := by
  cases l with
  | nil => simp [nextI] at h
  | cons y ys =>
    simp only [nextI] at h
    injection h with h
    rw [h]
    rfl

theorem cover_successors_mem {s : GraphStateCircuit} {C : DiGraph}
    (hC : ∀ e ∈ C.edges, e.2 ∈ s.graph.nodes) {v x : Nat}
    (hx : x ∈ C.successors v) : x ∈ s.graph.nodes := by
  unfold DiGraph.successors at hx
  rcases List.mem_map.mp hx with ⟨e, he, rfl⟩
  exact hC e (List.mem_filter.mp he).1

theorem dictLookup_init_iff (s : GraphStateCircuit) (u : Nat) :
    (dictLookup ((s.graph.nodes.filter
      (fun v => decide (v ∉ s.output_nodes))).map (fun v => (v, 0))) u).isOk ↔
    (u ∈ s.graph.nodes ∧ u ∉ s.output_nodes) := by
  unfold dictLookup
  constructor
  · intro h
    cases hf : ((s.graph.nodes.filter
        (fun v => decide (v ∉ s.output_nodes))).map (fun v => (v, 0))).find?
        (fun p => p.1 == u) with
    | none => rw [hf] at h; simp [Except.isOk, Except.toBool] at h
    | some p =>
      have hmem := List.mem_of_find?_eq_some hf
      have hp := List.find?_some hf
      rcases List.mem_map.mp hmem with ⟨w, hw, rfl⟩
      simp only [beq_iff_eq] at hp
      rcases List.mem_filter.mp hw with ⟨h1, h2⟩
      subst hp
      exact ⟨h1, by simpa using h2⟩
  · intro ⟨h1, h2⟩
    have hmem : (u, 0) ∈ (s.graph.nodes.filter
        (fun v => decide (v ∉ s.output_nodes))).map (fun v => (v, 0)) :=
      List.mem_map.mpr ⟨u, List.mem_filter.mpr ⟨h1, by simpa using h2⟩, rfl⟩
    have hsome : (((s.graph.nodes.filter
        (fun v => decide (v ∉ s.output_nodes))).map (fun v => (v, 0))).find?
        (fun p => p.1 == u)).isSome = true :=
      List.find?_isSome.mpr ⟨(u, 0), hmem, by simp⟩
    cases hf : ((s.graph.nodes.filter
        (fun v => decide (v ∉ s.output_nodes))).map (fun v => (v, 0))).find?
        (fun p => p.1 == u) with
    | none => rw [hf] at hsome; simp at hsome
    | some p => rfl

/-- Properties of one chain walk: the successor-map keys stay exactly the
non-output vertices, every entry it writes is the first cover successor of
its key, and the walk witnesses a cover chain from its start vertex that the
final map agrees with. -/
theorem chain_walk_props (s : GraphStateCircuit) (C : DiGraph)
    (hC : ∀ e ∈ C.edges, e.2 ∈ s.graph.nodes) (i : Nat) :
    ∀ (fuel v l0 : Nat) (f : List (Nat × Nat)) (P L : List Nat)
      (res : List (Nat × Nat) × List Nat × List Nat),
    _chain_walk s C i v l0 f P L fuel = .ok res →
    v ∈ s.graph.nodes →
    (∀ u, (dictLookup f u).isOk ↔ (u ∈ s.graph.nodes ∧ u ∉ s.output_nodes)) →
    ((∀ u, (dictLookup res.1 u).isOk ↔
        (u ∈ s.graph.nodes ∧ u ∉ s.output_nodes)) ∧
      (∀ u x, dictLookup res.1 u = .ok x →
        dictLookup f u = .ok x ∨ (C.successors u).head? = some x) ∧
      viaAgrees res.1 C s.output_nodes v fuel) := by
  intro fuel
  induction fuel with
  | zero =>
    intro v l0 f P L res hsucc hv hdom
    rw [_chain_walk] at hsucc
    split at hsucc
    case _ hout =>
      simp only [bind, Except.bind, Except.instMonad] at hsucc
      split at hsucc
      · exact Except.noConfusion hsucc
      split at hsucc
      · exact Except.noConfusion hsucc
      simp only [pure, Except.pure] at hsucc
      injection hsucc with hsucc
      have hres : res.1 = f := by rw [← hsucc]
      rw [hres]
      exact ⟨hdom, fun u x hx => Or.inl hx, hout⟩
    case _ hout => exact Except.noConfusion hsucc
  | succ fuel ih =>
    intro v l0 f P L res hsucc hv hdom
    rw [_chain_walk] at hsucc
    split at hsucc
    case _ hout =>
      simp only [bind, Except.bind, Except.instMonad] at hsucc
      split at hsucc
      · exact Except.noConfusion hsucc
      split at hsucc
      · exact Except.noConfusion hsucc
      simp only [pure, Except.pure] at hsucc
      injection hsucc with hsucc
      have hres : res.1 = f := by rw [← hsucc]
      rw [hres]
      exact ⟨hdom, fun u x hx => Or.inl hx, Or.inl hout⟩
    case _ hout =>
      simp only [bind, Except.bind, Except.instMonad] at hsucc
      split at hsucc
      · exact Except.noConfusion hsucc
      rename_i sv heqsv
      have hhead : (C.successors v).head? = some sv := nextI_ok_head heqsv
      have hsvn : sv ∈ s.graph.nodes :=
        cover_successors_mem hC (nextI_mem heqsv)
      split at hsucc
      · exact Except.noConfusion hsucc
      rename_i P1 heqP1
      split at hsucc
      · exact Except.noConfusion hsucc
      rename_i L1 heqL1
      have hdom1 : ∀ u, (dictLookup (dictSet f v sv) u).isOk ↔
          (u ∈ s.graph.nodes ∧ u ∉ s.output_nodes) := by
        intro u
        rw [dictLookup_dictSet]
        by_cases huv : u = v
        · subst huv
          simp only [if_pos rfl]
          constructor
          · intro _
            exact ⟨hv, hout⟩
          · intro _
            rfl
        · rw [if_neg huv]
          exact hdom u
      obtain ⟨hdom2, hW2, hvia2⟩ := ih sv (l0 + 1) (dictSet f v sv) P1 L1 res
        hsucc hsvn hdom1
      refine ⟨hdom2, ?_, ?_⟩
      · intro u x hx
        rcases hW2 u x hx with hx2 | hx2
        · rw [dictLookup_dictSet] at hx2
          by_cases huv : u = v
          · subst huv
            rw [if_pos rfl] at hx2
            injection hx2 with hx2
            right
            rw [hhead, hx2]
          · rw [if_neg huv] at hx2
            exact Or.inl hx2
        · exact Or.inr hx2
      · right
        refine ⟨sv, hhead, ?_, hvia2⟩
        have hok : (dictLookup res.1 v).isOk := (hdom2 v).mpr ⟨hv, hout⟩
        cases hlk : dictLookup res.1 v with
        | error e => rw [hlk] at hok; simp [Except.isOk, Except.toBool] at hok
        | ok x =>
          rcases hW2 v x hlk with hx2 | hx2
          · rw [dictLookup_dictSet, if_pos rfl] at hx2
            injection hx2 with hx2
            rw [hx2]
          · rw [hhead] at hx2
            injection hx2 with hx2
            rw [hx2]

/-- A chain witnessed by `f` survives into any later map whose entries are
still first cover successors. -/
theorem viaAgrees_mono (s : GraphStateCircuit) (C : DiGraph)
    (f f2 : List (Nat × Nat))
    (hdom : ∀ u, (dictLookup f u).isOk ↔
      (u ∈ s.graph.nodes ∧ u ∉ s.output_nodes))
    (hdom2 : ∀ u, (dictLookup f2 u).isOk ↔
      (u ∈ s.graph.nodes ∧ u ∉ s.output_nodes))
    (hW : ∀ u x, dictLookup f2 u = .ok x →
      dictLookup f u = .ok x ∨ (C.successors u).head? = some x) :
    ∀ (k v : Nat), viaAgrees f C s.output_nodes v k →
      viaAgrees f2 C s.output_nodes v k
  | 0, v, h => h
  | k + 1, v, h => by
    rcases h with h | ⟨w, hhead, hlook, hrec⟩
    · exact Or.inl h
    · right
      refine ⟨w, hhead, ?_, viaAgrees_mono s C f f2 hdom hdom2 hW k w hrec⟩
      have hvn : v ∈ s.graph.nodes ∧ v ∉ s.output_nodes :=
        (hdom v).mp (by rw [hlook]; rfl)
      have hok : (dictLookup f2 v).isOk = true := (hdom2 v).mpr hvn
      cases hlk : dictLookup f2 v with
      | error e => rw [hlk] at hok; simp [Except.isOk, Except.toBool] at hok
      | ok x =>
        rcases hW v x hlk with hx | hx
        · rw [hlook] at hx
          injection hx with hx
          rw [hx]
        · rw [hhead] at hx
          injection hx with hx
          rw [hx]

theorem viaAgrees_reaches (f : List (Nat × Nat)) (C : DiGraph)
    (outs : List Nat) :
    ∀ (k v : Nat), viaAgrees f C outs v k → reachesOutput f outs v k = true
  | 0, v, h => by simpa [reachesOutput] using h
  | k + 1, v, h => by
    rcases h with h | ⟨w, _, hlook, hrec⟩
    · simp [reachesOutput, h]
    · have hr := viaAgrees_reaches f C outs k w hrec
      simp [reachesOutput, hlook, hr]

/-- The input loop of the decomposition preserves the key set, writes only
first cover successors, and establishes a witnessed chain for every
processed input. -/
theorem decomp_loop_props (s : GraphStateCircuit) (C : DiGraph)
    (hC : ∀ e ∈ C.edges, e.2 ∈ s.graph.nodes) :
    ∀ (l : List Nat) (f : List (Nat × Nat)) (P L : List Nat)
      (res : List (Nat × Nat) × List Nat × List Nat),
    _decomp_loop s C l f P L = .ok res →
    (∀ i ∈ l, i ∈ s.graph.nodes) →
    (∀ u, (dictLookup f u).isOk ↔ (u ∈ s.graph.nodes ∧ u ∉ s.output_nodes)) →
    ((∀ u, (dictLookup res.1 u).isOk ↔
        (u ∈ s.graph.nodes ∧ u ∉ s.output_nodes)) ∧
      (∀ u x, dictLookup res.1 u = .ok x →
        dictLookup f u = .ok x ∨ (C.successors u).head? = some x) ∧
      (∀ i ∈ l, viaAgrees res.1 C s.output_nodes i s.graph.nodes.length))
  | [], f, P, L, res, hsucc, _, hdom => by
    simp only [_decomp_loop, pure, Except.pure] at hsucc
    injection hsucc with hsucc
    have hres : res.1 = f := by rw [← hsucc]
    rw [hres]
    exact ⟨hdom, fun u x hx => Or.inl hx, by simp⟩
  | i :: rest, f, P, L, res, hsucc, hl, hdom => by
    have hi : i ∈ s.graph.nodes := hl i (List.mem_cons_self _ _)
    simp only [_decomp_loop, bind, Except.bind, Except.instMonad] at hsucc
    split at hsucc
    · exact Except.noConfusion hsucc
    rename_i r heqwalk
    obtain ⟨hdom1, hW1, hvia1⟩ := chain_walk_props s C hC i
      s.graph.nodes.length i 0 f P L r heqwalk hi hdom
    obtain ⟨hdom2, hW2, hvia2⟩ := decomp_loop_props s C hC rest r.1 r.2.1
      r.2.2 res hsucc (fun k hk => hl k (List.mem_cons_of_mem _ hk)) hdom1
    refine ⟨hdom2, ?_, ?_⟩
    · intro u x hx
      rcases hW2 u x hx with hx2 | hx2
      · exact hW1 u x hx2
      · exact Or.inr hx2
    · intro j hj
      rcases List.mem_cons.mp hj with rfl | hj
      · exact viaAgrees_mono s C r.1 res.1 hdom1 hdom2 hW2 _ j hvia1
      · exact hvia2 j hj

theorem get_chain_decomposition_props (s : GraphStateCircuit) (C : DiGraph)
    (hC : ∀ e ∈ C.edges, e.2 ∈ s.graph.nodes)
    (hin : ∀ i ∈ s.input_nodes, i ∈ s.graph.nodes)
    {f : List (Nat × Nat)} {P L : List Nat}
    (hd : _get_chain_decomposition s C = .ok (f, P, L)) :
    (∀ u, (dictLookup f u).isOk ↔ (u ∈ s.graph.nodes ∧ u ∉ s.output_nodes)) ∧
    (∀ i ∈ s.input_nodes,
      reachesOutput f s.output_nodes i s.graph.nodes.length = true) := by
  unfold _get_chain_decomposition at hd
  obtain ⟨hdom, _, hvia⟩ := decomp_loop_props s C hC s.input_nodes _ _ _
    (f, P, L) hd hin (dictLookup_init_iff s)
  exact ⟨hdom, fun i hi =>
    viaAgrees_reaches f C s.output_nodes s.graph.nodes.length i (hvia i hi)⟩

/-- A successful `find_flow` run contains a successful path cover and a
successful chain decomposition. -/
theorem find_flow_chain_inversion (s : GraphStateCircuit) (c : Bool)
    (fl : Nat → Except Err Nat) (ord : List Nat)
    (hff : find_flow s c = .ok (some (fl, ord))) :
    ∃ C f P L, _build_path_cover s = .ok (some C) ∧
      _get_chain_decomposition s C = .ok (f, P, L) := by
  rw [find_flow] at hff
  split at hff
  · exact Except.noConfusion hff
  simp only [bind, Except.bind, Except.instMonad] at hff
  split at hff
  · exact Except.noConfusion hff
  rename_i tau heqb
  split at hff
  case _ fam =>
    split at hff
    case _ hnonempty =>
      split at hff
      · exact Except.noConfusion hff
      rename_i r heqd
      obtain ⟨f, P, L⟩ := r
      exact ⟨fam, f, P, L, heqb, heqd⟩
    case _ hnonempty => exact Except.noConfusion hff
  case _ => exact Except.noConfusion hff

/-- C7: for every successful result of `find_flow` (on a state whose inputs
and edges mention only graph vertices), the chain decomposition it computed
assigns exactly one successor entry to exactly the non-output vertices, and
iterating the successor map from any input vertex reaches an output vertex
within `|V|` steps. -/
theorem find_flow_chain_total_reach (s : GraphStateCircuit) (c : Bool)
    (fl : Nat → Except Err Nat) (ord : List Nat)
    (hin : ∀ i ∈ s.input_nodes, i ∈ s.graph.nodes)
    (hedges : ∀ e ∈ s.graph.edges, e.1 ∈ s.graph.nodes ∧ e.2 ∈ s.graph.nodes)
    (hff : find_flow s c = .ok (some (fl, ord))) :
    ∃ C f P L, _build_path_cover s = .ok (some C) ∧
      _get_chain_decomposition s C = .ok (f, P, L) ∧
      (∀ v, (dictLookup f v).isOk ↔
        (v ∈ s.graph.nodes ∧ v ∉ s.output_nodes)) ∧
      (∀ i ∈ s.input_nodes,
        reachesOutput f s.output_nodes i s.graph.nodes.length = true) := by
  obtain ⟨C, f, P, L, heqb, heqd⟩ := find_flow_chain_inversion s c fl ord hff
  have hclosed := build_path_cover_closed s hedges hin heqb
  have hC : ∀ e ∈ C.edges, e.2 ∈ s.graph.nodes :=
    fun e he => (hclosed.2 e he).2
  obtain ⟨hdom, hreach⟩ := get_chain_decomposition_props s C hC hin heqd
  exact ⟨C, f, P, L, heqb, heqd, hdom, hreach⟩

/-- Witness for C7 at the path-graph state, with the successor map computed
by the run itself. -/
theorem find_flow_chain_total_reach_witness :
    ∃ C f P L, _build_path_cover pathState = .ok (some C) ∧
      _get_chain_decomposition pathState C = .ok (f, P, L) ∧
      (∀ v, (dictLookup f v).isOk ↔
        (v ∈ pathState.graph.nodes ∧ v ∉ pathState.output_nodes)) ∧
      (∀ i ∈ pathState.input_nodes,
        reachesOutput f pathState.output_nodes i
          pathState.graph.nodes.length = true) :=
  find_flow_chain_total_reach pathState false
    (_flow_from_array pathState [(0, 1), (1, 2), (2, 3), (3, 4)])
    [0, 1, 2, 3, 4] (by decide) (by decide) (by rfl)
